import Mathlib

/-!
Verification development for the attendance-dashboard backend
(`backend/app/services/employee_hierarchy.py`,
`backend/app/services/weekly_analysis.py`, `backend/app/routers/work_hour.py`).

The Python code is shallowly embedded: dictionaries become association
lists (insertion order preserved; key sets assumed duplicate-free where the
source relies on `dict` semantics), Python sets become lists observed only
through membership, Python floats become exact rationals (`ℚ`; faithful for
the magnitudes handled here), and Python strings become Lean strings whose
`List Char` contents are manipulated by explicit executable models of
`strip`, `lower`, `split`, `in`, `replace` and of `int(...)` / `float(...)`
literal parsing (ASCII digits; `inf`/`nan`/underscore literals are treated
as unparseable, which no attendance value exercises).
-/

/-! ## Python string primitives, modelled over `List Char` -/

/-- Whitespace as recognised by Python's `str.strip` (ASCII subset). -/
def isWsChar (c : Char) : Bool :=
  c == ' ' || c == '\t' || c == '\n' || c == '\r' || c == '\x0b' || c == '\x0c'

/-- Trim whitespace from both ends of a character list. -/
def trimWs (l : List Char) : List Char :=
  ((l.dropWhile isWsChar).reverse.dropWhile isWsChar).reverse

/-- Model of Python `str.strip()`. -/
def pyStrip (s : String) : String := ⟨trimWs s.data⟩

/-- ASCII lower-casing of one character (model of Python `str.lower` per char). -/
def lowerChar (c : Char) : Char :=
  if 65 ≤ c.toNat ∧ c.toNat ≤ 90 then Char.ofNat (c.toNat + 32) else c

/-- Model of Python `str.lower()` (ASCII). -/
def pyLower (s : String) : String := ⟨s.data.map lowerChar⟩

/-- `pyStrip` then `pyLower`: the ubiquitous `.strip().lower()` idiom. -/
def pyStripLower (s : String) : String := pyLower (pyStrip s)

/-- Model of Python's substring test `needle in hay`. -/
def strContains (hay needle : String) : Bool :=
  hay.data.tails.any (fun t => needle.data.isPrefixOf t)

/-- Split a character list at every character satisfying `p`
(model of `re.split` on a single-character class). -/
def splitOnPred (p : Char → Bool) : List Char → List (List Char)
  | [] => [[]]
  | c :: rest =>
    if p c then [] :: splitOnPred p rest
    else
      match splitOnPred p rest with
      | [] => [[c]]
      | h :: t => (c :: h) :: t

/-- Split a character list on one separator character (Python `s.split("-")`). -/
def splitOnChar (c : Char) (l : List Char) : List (List Char) :=
  splitOnPred (fun x => x == c) l

/-- Fueled worker for splitting on a multi-character separator; each step
consumes at least one character, so fuel equal to the list length suffices. -/
def splitSeqFuel (sep : List Char) : ℕ → List Char → List Char → List (List Char)
  | _, [], acc => [acc.reverse]
  | 0, l, acc => [acc.reverse ++ l]
  | fuel + 1, c :: rest, acc =>
    if sep ≠ [] ∧ sep.isPrefixOf (c :: rest) then
      acc.reverse :: splitSeqFuel sep fuel (List.drop (sep.length - 1) rest) []
    else
      splitSeqFuel sep fuel rest (c :: acc)

/-- Model of Python `s.split(sep)` for a non-empty separator string. -/
def pySplitStr (s sep : String) : List String :=
  (splitSeqFuel sep.data s.data.length s.data []).map String.mk

/-- Model of Python `s.split(sep, 1)` (at most one split). -/
def pySplit1 (s sep : String) : List String :=
  match pySplitStr s sep with
  | [] => [s]
  | x :: rest => if rest = [] then [x] else [x, String.intercalate sep rest]

/-- Model of Python `sep.join(parts)`. -/
def pyJoin (sep : String) : List String → String
  | [] => ""
  | [x] => x
  | x :: rest => x ++ sep ++ pyJoin sep rest

/-- Replace one character by a replacement string throughout
(model of Python `s.replace(old, new)` for a one-character `old`). -/
def pyReplaceChar (c : Char) (new : String) (s : String) : String :=
  ⟨(s.data.map (fun x => if x == c then new.data else [x])).flatten⟩

/-- Python whitespace split `s.split()` (runs of whitespace, ends stripped). -/
def pySplitWs (s : String) : List String :=
  ((splitOnPred isWsChar s.data).map String.mk).filter (fun x => x ≠ "")

/-- Truthiness of an optional string: Python treats `None` and `""` as falsy. -/
def optTruthy (o : Option String) : Bool :=
  match o with
  | some s => s ≠ ""
  | none => false

/-! ## Numeric literal parsing (Python `int(...)` / `float(...)`) -/

/-- Value of a digit list, most significant first. -/
def digitsToNat (l : List Char) : ℕ :=
  l.foldl (fun a c => a * 10 + (c.toNat - 48)) 0

/-- `some` value when the list is a non-empty run of ASCII digits
(the acceptance condition of Python `str.isdigit` / the digits of `int`). -/
def digitsVal? (l : List Char) : Option ℕ :=
  if l ≠ [] ∧ l.all Char.isDigit then some (digitsToNat l) else none

/-- Model of Python `int(s)`: strip whitespace, optional sign, digit run. -/
def pyIntChars? (l : List Char) : Option ℤ :=
  match trimWs l with
  | [] => none
  | c :: r =>
    if c = '+' then (digitsVal? r).map Int.ofNat
    else if c = '-' then (digitsVal? r).map (fun n => -(Int.ofNat n))
    else (digitsVal? (c :: r)).map Int.ofNat

/-- Model of Python `int(s)` on strings. -/
def pyIntStr? (s : String) : Option ℤ := pyIntChars? s.data

/-- Core of Python `float(s)` on a stripped character list: optional sign,
integer part, optional fractional part, optional exponent.  The value is the
exact rational the literal denotes (floats are modelled exactly). -/
def pyFloatCore (l : List Char) : Option ℚ :=
  let sgn : ℚ := if l.headD ' ' = '-' then -1 else 1
  let l1 := if l.headD ' ' = '+' ∨ l.headD ' ' = '-' then l.tail else l
  let ip := l1.takeWhile Char.isDigit
  let l2 := l1.dropWhile Char.isDigit
  let fp := if l2.headD ' ' = '.' then l2.tail.takeWhile Char.isDigit else []
  let l3 := if l2.headD ' ' = '.' then l2.tail.dropWhile Char.isDigit else l2
  if ip = [] ∧ fp = [] then none
  else
    let mant : ℚ := (digitsToNat ip : ℚ) + (digitsToNat fp : ℚ) / (10 : ℚ) ^ fp.length
    if l3 = [] then some (sgn * mant)
    else if l3.headD ' ' = 'e' ∨ l3.headD ' ' = 'E' then
      let t := l3.tail
      let esgn : ℤ := if t.headD ' ' = '-' then -1 else 1
      let t1 := if t.headD ' ' = '+' ∨ t.headD ' ' = '-' then t.tail else t
      let ed := t1.takeWhile Char.isDigit
      let t2 := t1.dropWhile Char.isDigit
      if ed = [] ∨ t2 ≠ [] then none
      else some (sgn * mant * (10 : ℚ) ^ (esgn * (digitsToNat ed : ℤ)))
    else none

/-- Model of Python `float(s)` on strings (finite decimal literals). -/
def pyFloatQ? (s : String) : Option ℚ := pyFloatCore (trimWs s.data)

/-- Python `int(x)` on a float value: truncation toward zero
(`num/den` in truncating integer division). -/
def ratTrunc (v : ℚ) : ℤ := v.num.tdiv (v.den : ℤ)

/-- Decimal digit characters of `n`, most significant first (fueled; fuel
`n + 1` always suffices since `n` has at most `n + 1` digits). -/
def natToDigitsAux : ℕ → ℕ → List Char
  | 0, _ => []
  | fuel + 1, n =>
    if n < 10 then [Nat.digitChar n]
    else natToDigitsAux fuel (n / 10) ++ [Nat.digitChar (n % 10)]

/-- Decimal representation of a natural number (model of Python `str(n)`). -/
def natToChars (n : ℕ) : List Char := natToDigitsAux (n + 1) n

/-- Decimal representation of an integer (model of Python `str(n)`). -/
def intToChars (z : ℤ) : List Char :=
  if z < 0 then '-' :: natToChars z.natAbs else natToChars z.toNat

/-- Decimal string of an integer. -/
def intToString (z : ℤ) : String := ⟨intToChars z⟩

/-! ## `_norm_employee_code` (employee_hierarchy.py lines 14-26) -/

/-- The all-digits test of line 21: the lowered trimmed string with every
`'.'` and `' '` removed is a non-empty run of digits (`str.isdigit`). -/
def digitCondition (s : String) : Bool :=
  let cleaned := s.data.filter (fun c => ¬ (c == '.' ∨ c == ' '))
  cleaned ≠ [] ∧ cleaned.all Char.isDigit

/-- Model of `_norm_employee_code`: normalise an employee code / line-manager
id so `11410` and `11410.0` match.  Mirrors lines 14-26: empty after strip ⇒
`""`; if the lowered string with dots/spaces removed is all digits, try
`str(int(float(s)))`, falling back (the `except` branch) to the lowered
string; otherwise the lowered string. -/
def normEmployeeCode (input : String) : String :=
  let s := pyStrip input
  if s = "" then ""
  else
    let s_lower := pyLower s
    if digitCondition s_lower then
      match pyFloatQ? s with
      | some v => intToString (ratTrunc v)
      | none => s_lower
    else s_lower

/-! ## `_get_week_key` (weekly_analysis.py lines 138-150) -/

/-- A parsed calendar date as produced by `_parse_date` (a `datetime`;
only the fields read by `_get_week_key` are modelled). -/
structure PyDate where
  year : ℕ
  month : ℕ
  day : ℕ
deriving DecidableEq

/-- Model of `_get_week_key`: `(year, month, ((day - 1) // 7) + 1)`. -/
def getWeekKey (d : PyDate) : ℕ × ℕ × ℕ :=
  (d.year, d.month, (d.day - 1) / 7 + 1)

/-! ## `_time_to_hours` / `_compute_duration_hours`
(weekly_analysis.py lines 157-190) -/

/-- The Excel-serial branch of `_time_to_hours` (lines 162-168): a float in
`(0, 1]` is a fraction of a day. -/
def excelSerial? (s : String) : Option ℚ :=
  match pyFloatQ? (pyReplaceChar ',' "." s) with
  | some v => if 0 < v ∧ v ≤ 1 then some (v * 24) else none
  | none => none

/-- The `HH:MM[:SS]` / `HH.MM` branch of `_time_to_hours` (lines 169-177):
split on `':'`/`'.'` and read hour, minute and optional second as `int`s. -/
def hmsValue? (s : String) : Option ℚ :=
  match splitOnPred (fun c => c == ':' || c == '.') s.data with
  | p0 :: p1 :: rest =>
    let sec? : Option ℤ :=
      match rest with
      | [] => some 0
      | p2 :: _ => pyIntChars? p2
    match pyIntChars? p0, pyIntChars? p1, sec? with
    | some h, some m, some sec => some ((h : ℚ) + (m : ℚ) / 60 + (sec : ℚ) / 3600)
    | _, _, _ => none
  | _ => none

/-- Model of `_time_to_hours`: empty ⇒ 0; an Excel fractional-day serial in
`(0, 1]` ⇒ `v * 24`; otherwise the `HH:MM[:SS]` reading; anything
unparseable ⇒ 0. -/
def timeToHours (time_str : String) : ℚ :=
  if time_str = "" then 0
  else
    let s := pyStrip time_str
    match excelSerial? s with
    | some h => h
    | none => (hmsValue? s).getD 0

/-- Model of `_compute_duration_hours`: 0 if either endpoint parses to 0,
overnight wrap (`end < start` ⇒ `end + 24`), clamped at 0. -/
def computeDurationHours (start_str end_str : String) : ℚ :=
  let start_h := timeToHours start_str
  let end_h := timeToHours end_str
  if start_h = 0 ∨ end_h = 0 then 0
  else
    let end_h := if end_h < start_h then end_h + 24 else end_h
    max 0 (end_h - start_h)

/-! ## Per-row weekly accumulation (compute_weekly_analysis, lines 343-402)

One attendance row's contribution to its `(week, group[, department])` cell,
after the date has parsed, the group value resolved and a non-empty
`member_id` extracted (rows failing those guards are skipped earlier in the
loop and never reach this code). -/

/-- The cells of an attendance row read by the per-row accumulation. -/
structure AttRow where
  flag : String
  is_late : String
  shift_in : String
  shift_out : String
  in_time : String
  out_time : String
deriving DecidableEq

/-- The counters of one aggregation cell. -/
structure CellAcc where
  members : Finset String
  present : ℕ
  late : ℕ
  on_time : ℕ
  shift_sum : ℚ
  work_sum : ℚ
  completed : ℕ
  total_work_days : ℕ
  lost_sum : ℚ
  leave_members : Finset String
  sl : ℕ
  cl : ℕ
  a : ℕ
  total_leave_days : ℕ
deriving DecidableEq

/-- The empty cell (all `defaultdict` counters at zero, empty member sets). -/
def emptyCell : CellAcc := ⟨∅, 0, 0, 0, 0, 0, 0, 0, 0, ∅, 0, 0, 0, 0⟩

/-- Model of one iteration of the row loop of `compute_weekly_analysis`
restricted to the row's own cell: member tracking, on-time analysis
(`Flag == "P"` with `Is Late`), the work-hour block for `Flag ∈ {P, OD}`
(skipping `W`/`H`), and leave analysis (`SL`/`CL`/`A`). -/
def processRow (row : AttRow) (member_id : String) (acc : CellAcc) : CellAcc :=
  let acc := { acc with members := insert member_id acc.members }
  let flag := pyStrip row.flag
  let is_late := pyStripLower row.is_late = "yes"
  let acc :=
    if flag = "P" then
      if is_late then
        { acc with present := acc.present + 1, late := acc.late + 1 }
      else
        { acc with present := acc.present + 1, on_time := acc.on_time + 1 }
    else acc
  let acc :=
    if flag = "W" ∨ flag = "H" then acc
    else if flag = "P" ∨ flag = "OD" then
      let shift_hours := computeDurationHours (pyStrip row.shift_in) (pyStrip row.shift_out)
      let work_hours := computeDurationHours (pyStrip row.in_time) (pyStrip row.out_time)
      if 0 < shift_hours ∨ 0 < work_hours then
        let acc :=
          { acc with
            shift_sum := acc.shift_sum + shift_hours,
            work_sum := acc.work_sum + work_hours,
            total_work_days := acc.total_work_days + 1 }
        let acc :=
          if shift_hours ≤ work_hours ∧ 0 < shift_hours then
            { acc with completed := acc.completed + 1 }
          else acc
        if 0 < shift_hours ∧ work_hours < shift_hours then
          { acc with lost_sum := acc.lost_sum + (shift_hours - work_hours) }
        else acc
      else acc
    else acc
  let acc :=
    if member_id ≠ "" then { acc with leave_members := insert member_id acc.leave_members }
    else acc
  if flag = "SL" then
    { acc with sl := acc.sl + 1, total_leave_days := acc.total_leave_days + 1 }
  else if flag = "CL" then
    { acc with cl := acc.cl + 1, total_leave_days := acc.total_leave_days + 1 }
  else if flag = "A" then
    { acc with a := acc.a + 1, total_leave_days := acc.total_leave_days + 1 }
  else acc

/-! ## Employee hierarchy rows and the scope resolver
(employee_hierarchy.py lines 55-512)

`build_hierarchy_map` first extracts, per roster row, a fixed set of cells
by alias lookup (`_get_cell`) keyed by lower-cased email; that extraction
stage (database fetch plus alias resolution) is abstracted here: the
embedding takes the resulting email-keyed association list directly, in
insertion order, and models everything from line 106 onward.  `level` is the
field attached at line 169. -/

/-- One value of the `email_to_row` map of `build_hierarchy_map`
(all cells are strings; missing cells are `""`, as `_get_cell` returns). -/
structure EmpRow where
  name : String
  employee_code : String
  supervisor_name : String
  line_manager_employee_id : String
  function : String
  department : String
  company : String
  level : String
deriving DecidableEq

/-- Dictionary lookup on an email-keyed association list (first match;
Python `dict` keys are unique, so first match is the entry). -/
def hmGet (hm : List (String × EmpRow)) (k : String) : Option EmpRow :=
  (hm.find? (fun p => p.1 == k)).map Prod.snd

/-- Python `k in d` on an association list. -/
def keyMem (hm : List (String × EmpRow)) (k : String) : Bool :=
  hm.any (fun p => p.1 == k)

/-- The `User` attributes read by the scope resolver (`getattr(user, ..., None)`
yields `None` for unset attributes, hence `Option`). -/
structure UserRec where
  role : Option String
  employee_email : Option String
  data_scope_level : Option String
  allowed_functions : Option (List String)
  allowed_departments : Option (List String)
  allowed_companies : Option (List String)
deriving DecidableEq

/-- The effective-scope dictionary returned by `get_effective_scope` (and
consumed by `_filter_weekly_by_scope`): `None` list values only occur
together with `all = True`. -/
structure EffScope where
  all : Bool
  allowed_functions : Option (List String)
  allowed_departments : Option (List String)
  allowed_companies : Option (List String)
deriving DecidableEq

/-- The dictionary returned by `scope_for_user` (lines 346-393). -/
structure SfuScope where
  all : Bool
  allowed_functions : Option (List String)
  allowed_departments : Option (List String)
  data_scope_level : Option String
deriving DecidableEq

/-- `isinstance(x, list) and len(x) > 0` on an optional list attribute. -/
def listNonempty (o : Option (List String)) : Bool :=
  match o with
  | some l => l ≠ []
  | none => false

/-- Python `x or []` on an optional list. -/
def orEmpty (o : Option (List String)) : List String := o.getD []

/-- The normalisation `(getattr(user, f, None) or "").strip() or None`
of lines 472-473. -/
def optNormE (o : Option String) : Option String :=
  let t := pyStrip (o.getD "")
  if t = "" then none else some t

/-- `sorted(...)` on a collection of strings: deduplicate (set semantics)
then sort lexicographically, as Python `sorted(set_of_str)`. -/
def sortedStrings (l : List String) : List String :=
  l.dedup.mergeSort (fun a b => decide (a ≤ b))

/-- Model of `scope_for_user` (lines 346-393): `{all: True}` for missing
email/level or unknown employee or level `N`; for `N-1` the own function and
every department under it; for `N-2` and deeper the own function and own
department only. -/
def scopeForUser (hm : List (String × EmpRow))
    (employee_email data_scope_level : Option String) : SfuScope :=
  if ¬ optTruthy employee_email ∨ ¬ optTruthy data_scope_level then
    ⟨true, none, none, none⟩
  else
    let email_lower := pyStripLower (employee_email.getD "")
    match hmGet hm email_lower with
    | none => ⟨true, none, none, data_scope_level⟩
    | some emp =>
      let level := pyStrip (data_scope_level.getD "")
      if level = "N" then ⟨true, none, none, some "N"⟩
      else
        let func := pyStrip emp.function
        let dept := pyStrip emp.department
        if level = "N-1" then
          let depts_under_function :=
            ((hm.map Prod.snd).filter
              (fun r => pyStrip r.function = func ∧ pyStrip r.department ≠ "")).map
              (fun r => pyStrip r.department)
          ⟨false, some (if func ≠ "" then [func] else []),
            some (sortedStrings depts_under_function), some "N-1"⟩
        else
          ⟨false, some (if func ≠ "" then [func] else []),
            some (if dept ≠ "" then [dept] else []), some level⟩

/-- Model of `get_effective_scope` (lines 447-512).  The hierarchy map that
the Python code either receives or rebuilds from the database is supplied
directly as `hm`. -/
def getEffectiveScope (u : UserRec) (hm : List (String × EmpRow)) : EffScope :=
  if u.role = some "admin" then ⟨true, none, none, none⟩
  else if u.role = some "N" then ⟨true, none, none, none⟩
  else
    let af := u.allowed_functions
    let ad := u.allowed_departments
    let ac := u.allowed_companies
    if listNonempty af then ⟨false, some (orEmpty af), some (orEmpty ad), some (orEmpty ac)⟩
    else if listNonempty ad then ⟨false, some (orEmpty af), some (orEmpty ad), some (orEmpty ac)⟩
    else if listNonempty ac then ⟨false, some (orEmpty af), some (orEmpty ad), some (orEmpty ac)⟩
    else
      let emp_email := optNormE u.employee_email
      let data_scope_level := optNormE u.data_scope_level
      match emp_email, data_scope_level with
      | some ee, some dsl =>
        let scope := scopeForUser hm (some ee) (some dsl)
        if scope.all then ⟨true, none, none, none⟩
        else
          let emp := hmGet hm (pyLower ee)
          let companies : List String :=
            if emp.isSome ∧ orEmpty scope.allowed_functions ≠ [] then
              (hm.map Prod.snd).foldl
                (fun cs row =>
                  if pyStrip row.function ∈ orEmpty scope.allowed_functions then
                    let c := pyStrip row.company
                    if c ≠ "" ∧ c ∉ cs then cs ++ [c] else cs
                  else cs)
                []
            else []
          let companies :=
            if emp.isSome ∧ companies = [] ∧ pyStrip ((emp.map EmpRow.company).getD "") ≠ "" then
              [pyStrip ((emp.map EmpRow.company).getD "")]
            else companies
          ⟨false, some (orEmpty scope.allowed_functions),
            some (orEmpty scope.allowed_departments), some companies⟩
      | ee?, _ =>
        match ee? with
        | some ee =>
          match hmGet hm (pyLower ee) with
          | some emp =>
            let func := pyStrip emp.function
            let dept := pyStrip emp.department
            let company := pyStrip emp.company
            ⟨false, some (if func ≠ "" then [func] else []),
              some (if dept ≠ "" then [dept] else []),
              some (if company ≠ "" then [company] else [])⟩
          | none => ⟨true, none, none, none⟩
        | none => ⟨true, none, none, none⟩

/-! ## Weekly scope filter (`work_hour.py` lines 84-219)

Python sets built by `_norm_set` / `_allowed_function_match_set` are
represented as lists observed only through membership, emptiness and
intersection tests, for which duplicates and order are irrelevant. -/

/-- Model of `_norm_set`: strip and lower every entry, dropping blanks. -/
def normSetL (items : List String) : List String :=
  (items.map pyStripLower).filter (fun x => x ≠ "")

/-- The `_COMPANY_TO_SHORT` table (with `.get(c, c)` default). -/
def companyToShort (c : String) : String :=
  if c = "confidence batteries limited" then "cbl"
  else if c = "confidence infrastructure plc." then "ciplc"
  else if c = "confidence steel export limited" then "csel"
  else c

/-- `_COMPANY_SHORT_NAMES` = `_COMPANY_ABBREVS`. -/
def companyShortNames : List String := ["cbl", "ciplc", "csel"]

/-- Model of `_allowed_function_match_set`: every allowed function plus, when
it carries a trailing company-abbreviation suffix (`"F - CIPLC & CBL"`), the
base name with the suffix stripped. -/
def allowedFunctionMatchSet (allowed_functions : List String) : List String :=
  allowed_functions.foldl
    (fun out af0 =>
      let af := pyStripLower af0
      if af = "" then out
      else
        let out := out ++ [af]
        if strContains af " - " then
          let parts := pySplitStr af " - "
          let last := pyStripLower (parts.getLastD "")
          if companyShortNames.any (fun ab => strContains last ab) then
            let base := pyStripLower (String.intercalate " - " parts.dropLast)
            if base ≠ "" then out ++ [base] else out
          else out
        else out)
    []

/-- Model of `_normalize_func`: lower, treat `&` and `and` alike, collapse
whitespace. -/
def normalizeFunc (s : String) : String :=
  if s = "" then ""
  else
    let s1 := pyReplaceChar '&' " and " (pyStripLower s)
    String.intercalate " " (pySplitWs s1)

/-- Model of `_function_matches_scope`: exact, substring-either-direction,
then `&`-vs-`and` normalised substring matching. -/
def functionMatchesScope (group_for_match group_lower : String)
    (function_match_set : List String) : Bool :=
  if function_match_set = [] then true
  else if group_for_match ∈ function_match_set ∨ group_lower ∈ function_match_set then true
  else if function_match_set.any
      (fun allowed => strContains group_for_match allowed ∨ strContains allowed group_for_match)
    then true
  else
    let g_norm := normalizeFunc group_for_match
    function_match_set.any
      (fun allowed =>
        let a_norm := normalizeFunc allowed
        a_norm ≠ "" ∧ (strContains g_norm a_norm ∨ strContains a_norm g_norm))

/-- The `_dept_matches` closure of lines 208-215: exact or
substring-either-direction department match. -/
def deptMatches (allowed : List String) (d : String) : Bool :=
  let d := pyStripLower d
  if d ∈ allowed then true
  else allowed.any (fun a => strContains d a ∨ strContains a d)

/-- One weekly-analysis output row as read by the filter: its `group` and
`department` fields plus the untouched remainder of the row dictionary. -/
structure WeeklyRow where
  group : Option String
  department : Option String
  rest : List (String × String)
deriving DecidableEq

/-- The per-row keep decision of the loop body (lines 176-218): a row is
appended to `out` unless one of the `continue` branches fires. -/
def keepRow (group_by : String) (function_match_set allowed_companies allowed_departments :
    List String) (row : WeeklyRow) : Bool :=
  let group := pyStrip (row.group.getD "")
  let group_lower := pyLower group
  let department := pyStrip (row.department.getD "")
  let row_depts := ((pySplitStr department ",").map pyStrip).filter (fun d => d ≠ "")
  let function_ok :=
    if group_by = "function" then
      let pfx :=
        if strContains group_lower " - " then pyStrip ((pySplit1 group_lower " - ").headD "")
        else ""
      let group_for_match :=
        if strContains group_lower " - " then
          let parts := pySplit1 group_lower " - "
          if parts.length = 2 then pyStrip (parts.getD 1 "") else group_lower
        else group_lower
      let row_matches_function :=
        if function_match_set ≠ [] then
          functionMatchesScope group_for_match group_lower function_match_set
        else true
      if function_match_set ≠ [] ∧ ¬ row_matches_function then false
      else if allowed_companies ≠ [] ∧ pfx ≠ "" ∧ pfx ∉ allowed_companies then
        let scope_has_mapped_company :=
          allowed_companies.any (fun c => c ∈ companyShortNames)
        if row_matches_function ∧ ¬ scope_has_mapped_company then true else false
      else true
    else true
  let company_ok :=
    ¬ (group_by = "company" ∧ allowed_companies ≠ [] ∧ group_lower ∉ allowed_companies)
  let dept_ok :=
    ¬ (allowed_departments ≠ [] ∧ row_depts ≠ [] ∧
        ¬ row_depts.any (deptMatches allowed_departments))
  function_ok ∧ company_ok ∧ dept_ok

/-- Model of `_filter_weekly_by_scope` (lines 154-219): pass everything
through for `scope.all` or when no allow-set is configured; otherwise keep
exactly the rows surviving the per-row checks. -/
def filterWeeklyByScope (result : List WeeklyRow) (group_by : String)
    (scope : EffScope) : List WeeklyRow :=
  if scope.all then result
  else
    let allowed_functions := normSetL (orEmpty scope.allowed_functions)
    let allowed_departments := normSetL (orEmpty scope.allowed_departments)
    let allowed_companies_raw := normSetL (orEmpty scope.allowed_companies)
    let allowed_companies := allowed_companies_raw ++ allowed_companies_raw.map companyToShort
    if allowed_functions = [] ∧ allowed_departments = [] ∧ allowed_companies = [] then result
    else
      let function_match_set :=
        if allowed_functions ≠ [] then allowedFunctionMatchSet allowed_functions else []
      result.filter (keepRow group_by function_match_set allowed_companies allowed_departments)

/-! ## `get_subordinate_emails` (employee_hierarchy.py lines 231-259) -/

/-- `child_map` lookup with `[]` default (`child_map.get(parent, [])`). -/
def childLookup (cm : List (String × List String)) (p : String) : List String :=
  match cm.find? (fun q => q.1 == p) with
  | some q => q.2
  | none => []

/-- Total number of child entries in a child map. -/
def totalKids (cm : List (String × List String)) : ℕ :=
  (cm.map (fun p => p.2.length)).sum

/-- Sequential pass over one node's children (the inner `for` of the BFS):
children not yet in `out` are added to `out` and to the pending queue. -/
def addKids : List String → Finset String → List String → Finset String × List String
  | [], out, acc => (out, acc)
  | c :: cs, out, acc =>
    if c ∈ out then addKids cs out acc
    else addKids cs (insert c out) (acc ++ [c])

/-- Fueled BFS collecting `out` (the `while q` loop of
`get_subordinate_emails`).  Every email is enqueued at most once (it is added
to `out` when enqueued, and only absent emails are enqueued), so the number
of dequeues is at most `1 + totalKids cm` and the fuel used below suffices. -/
def subBfs (cm : List (String × List String)) : ℕ → List String → Finset String → Finset String
  | 0, _, out => out
  | _ + 1, [], out => out
  | fuel + 1, p :: q, out =>
    let r := addKids (childLookup cm p) out []
    subBfs cm fuel (q ++ r.2) r.1

/-- Model of `get_subordinate_emails`: `∅` for an empty map or email; a
self-singleton for an unknown employee; everyone for level `N`; otherwise
self plus all transitive descendants. -/
def getSubordinateEmails (hm : List (String × EmpRow)) (cm : List (String × List String))
    (employee_email : String) : Finset String :=
  if hm = [] ∨ employee_email = "" then ∅
  else
    let email_lower := pyStripLower employee_email
    match hmGet hm email_lower with
    | none => {email_lower}
    | some row =>
      if pyStrip row.level = "N" then (hm.map Prod.fst).toFinset
      else subBfs cm (totalKids cm + 2) [email_lower] {email_lower}

/-! ## Hierarchy builder: parent resolution, roots, BFS levels
(employee_hierarchy.py lines 106-171) -/

/-- Lookup in a string-valued dictionary modelled as an association list;
entries are prepended on assignment, so the first match is the most recent
write, matching `dict` overwrite semantics. -/
def dictGet (d : List (String × String)) (k : String) : Option String :=
  (d.find? (fun p => p.1 == k)).map Prod.snd

/-- Python `k in level_map` on a string-valued association list. -/
def keyMemL (m : List (String × String)) (k : String) : Bool :=
  m.any (fun p => p.1 == k)

/-- The `code_to_email` index of lines 106-110: every normalised employee
code maps to its email, and every email maps to itself (later rows
overwrite earlier ones). -/
def codeToEmail (rows : List (String × EmpRow)) : List (String × String) :=
  rows.foldl
    (fun d p =>
      let d :=
        if p.2.employee_code ≠ "" then (normEmployeeCode p.2.employee_code, p.1) :: d else d
      (p.1, p.1) :: d)
    []

/-- Model of the inner `parent_email` (lines 112-125): line-manager id via
the code index, else the id itself when it is a roster email, else the first
roster entry whose name matches the supervisor name. -/
def parentEmail (rows : List (String × EmpRow)) (row : EmpRow) : Option String :=
  let lm_id := pyStrip row.line_manager_employee_id
  let sup_name := pyStrip row.supervisor_name
  let viaLm : Option String :=
    if lm_id ≠ "" then
      let lm_norm := normEmployeeCode lm_id
      match (if lm_norm ≠ "" then dictGet (codeToEmail rows) lm_norm else none) with
      | some x => some x
      | none =>
        if strContains lm_id "@" ∧ keyMem rows (pyStrip (pyLower lm_id)) then
          some (pyStrip (pyLower lm_id))
        else none
    else none
  match viaLm with
  | some x => some x
  | none =>
    if sup_name ≠ "" then
      (rows.find? (fun p => pyStripLower p.2.name == pyLower sup_name)).map Prod.fst
    else none

/-- `child_map.setdefault(p, []).append(e)`. -/
def addChild : List (String × List String) → String → String → List (String × List String)
  | [], p, e => [(p, [e])]
  | (k, l) :: rest, p, e =>
    if k = p then (k, l ++ [e]) :: rest else (k, l) :: addChild rest p e

/-- The resolved parent of a row when it is truthy and present in the roster
(the guard of line 132 under which a child edge is recorded). -/
def keepParent (rows : List (String × EmpRow)) (row : EmpRow) : Option String :=
  match parentEmail rows row with
  | some p => if p ≠ "" ∧ keyMem rows p then some p else none
  | none => none

/-- The `child_map` of lines 127-133. -/
def buildChildMap (rows : List (String × EmpRow)) : List (String × List String) :=
  rows.foldl
    (fun cm p =>
      match keepParent rows p.2 with
      | some pe => addChild cm pe p.1
      | none => cm)
    []

/-- The root test of line 135: no parent, or a falsy parent, or a parent
absent from the roster. -/
def rootCondB (rows : List (String × EmpRow)) (row : EmpRow) : Bool :=
  match parentEmail rows row with
  | none => true
  | some p => p = "" ∨ ¬ keyMem rows p

/-- The `roots` list of line 135. -/
def rootsOf (rows : List (String × EmpRow)) : List String :=
  (rows.filter (fun p => rootCondB rows p.2)).map Prod.fst

/-- The fallback of lines 136-137: if no roots, every record is a root. -/
def usedRootsOf (rows : List (String × EmpRow)) : List String :=
  if rootsOf rows = [] then rows.map Prod.fst else rootsOf rows

/-- Model of `next_level` (lines 139-149) on character lists: `"N" → "N-1"`,
`"N-k" → "N-(k+1)"` by parsing the part after the first dash as an `int`,
anything unparseable falling back to `"N-1"`. -/
def nextLevelData (l : List Char) : List Char :=
  if l = ['N'] then ['N', '-', '1']
  else
    match splitOnChar '-' l with
    | _ :: p1 :: _ =>
      match pyIntChars? p1 with
      | some n => ['N', '-'] ++ intToChars (n + 1)
      | none => ['N', '-', '1']
    | _ => ['N', '-', '1']

/-- Model of `next_level` on strings. -/
def nextLevel (level : String) : String := ⟨nextLevelData level.data⟩

/-- Fueled BFS assigning levels (the `while q` loop of lines 151-161): pop,
skip if seen, otherwise record the level and enqueue the children one level
deeper.  Each email is popped unseen at most once, so the number of pops is
at most the initial queue length plus `totalKids cm`, and the fuel used by
`preLevelsOf` suffices (proved below for the entries of the initial queue). -/
def bfsLevelsFuel (cm : List (String × List String)) :
    ℕ → List (String × String) → List String → List (String × String) → List (String × String)
  | 0, _, _, lm => lm
  | _ + 1, [], _, lm => lm
  | fuel + 1, (e, l) :: q, seen, lm =>
    if e ∈ seen then bfsLevelsFuel cm fuel q seen lm
    else
      bfsLevelsFuel cm fuel (q ++ (childLookup cm e).map (fun c => (c, nextLevel l)))
        (e :: seen) (lm ++ [(e, l)])

/-- The `level_map` contents after the BFS of lines 151-161 (before the
`"N-2"` fallback), as an association list in assignment order. -/
def preLevelsOf (rows : List (String × EmpRow)) : List (String × String) :=
  let cm := buildChildMap rows
  let q0 := (usedRootsOf rows).map (fun r => (r, "N"))
  bfsLevelsFuel cm (q0.length + totalKids cm + 1) q0 [] []

/-- The final `level_map` (lines 151-165): BFS assignments plus the `"N-2"`
default for every roster email the BFS never reached. -/
def buildLevelMap (rows : List (String × EmpRow)) : List (String × String) :=
  let pre := preLevelsOf rows
  pre ++ ((rows.map Prod.fst).filter (fun e => ¬ keyMemL pre e)).map (fun e => (e, "N-2"))

/-- `build_hierarchy_map`'s final step (lines 168-169): attach each row's
level. -/
def buildHierarchyMap (rows : List (String × EmpRow)) : List (String × EmpRow) :=
  rows.map (fun p => (p.1, { p.2 with level := (dictGet (buildLevelMap rows) p.1).getD "" }))

/-- The canonical level string of BFS depth `k`: `"N"`, `"N-1"`, `"N-2"`, …
(statement vocabulary for the level-monotonicity property). -/
def levelCharsOfNat (k : ℕ) : List Char :=
  if k = 0 then ['N'] else ['N', '-'] ++ natToChars k

/-- The canonical level string of depth `k`. -/
def levelStrOfNat (k : ℕ) : String := ⟨levelCharsOfNat k⟩

/-- The numeric suffix of a level label: `"N" ↦ 0`, `"N-k" ↦ k`. -/
def levelSuffix (s : String) : Option ℕ :=
  if s.data = ['N'] then some 0
  else if s.data.take 2 = ['N', '-'] then digitsVal? (s.data.drop 2) else none

/-- A canonical level label: `"N"` or `"N-k"` (statement vocabulary). -/
def canonLevel (l : String) : Prop := ∃ k, l = levelStrOfNat k

/-- Soundness of one BFS level assignment with respect to a level map `m`:
the email is a used root labelled `"N"`, or a child (in the child map) of an
already-assigned parent, labelled one `next_level` step deeper. -/
def entryOk (rootsUsed : List String) (cm : List (String × List String))
    (m : List (String × String)) (e l : String) : Prop :=
  (e ∈ rootsUsed ∧ l = "N") ∨
  ∃ p lp, dictGet m p = some lp ∧ e ∈ childLookup cm p ∧ l = nextLevel lp

/-! # Theorems -/

/-- C6: for every parsed attendance date, the week bucket is
`((day - 1) // 7) + 1`, independent of calendar week boundaries or month
length; day 8 buckets to week 2, days 1 and 7 to week 1, and a month has at
most 5 buckets. -/
theorem weekly_week_bucketing (y m d : ℕ) (h1 : 1 ≤ d) (h31 : d ≤ 31) :
    getWeekKey ⟨y, m, d⟩ = (y, m, (d - 1) / 7 + 1) ∧
    1 ≤ (d - 1) / 7 + 1 ∧ (d - 1) / 7 + 1 ≤ 5 ∧
    (d = 8 → (d - 1) / 7 + 1 = 2) ∧
    ((d = 1 ∨ d = 7) → (d - 1) / 7 + 1 = 1) :=
  ⟨rfl, by omega, by omega, by omega, by omega⟩

/-- Witness for C6 at the concrete date 2025-03-08. -/
theorem weekly_week_bucketing_witness :
    1 ≤ 8 ∧ 8 ≤ 31 ∧ getWeekKey ⟨2025, 3, 8⟩ = (2025, 3, 2) :=
  ⟨by decide, by decide, by
    have h := weekly_week_bucketing 2025 3 8 (by decide) (by decide)
    simpa using h.1⟩

/-- C2: a user with role `"admin"` or role `"N"` (the attribute carrying the
hierarchy level) gets `{all: true}` from `get_effective_scope`, as the first
rule — before, and therefore overriding, any non-empty override lists the
user may also carry (the user record is arbitrary apart from the role). -/
theorem scope_admin_or_level_n_sees_all (u : UserRec) (hm : List (String × EmpRow))
    (h : u.role = some "admin" ∨ u.role = some "N") :
    getEffectiveScope u hm = ⟨true, none, none, none⟩ := by
  rcases h with h | h <;> simp [getEffectiveScope, h]

/-- Witness for C2: an admin user carrying a non-empty `allowed_functions`
override still gets `{all: true}`. -/
theorem scope_admin_or_level_n_sees_all_witness :
    ((some "admin" : Option String) = some "admin" ∨ (some "admin" : Option String) = some "N") ∧
    getEffectiveScope ⟨some "admin", some "x@y", some "N-2", some ["Finance"], none, none⟩
        [("x@y", ⟨"X", "1", "", "", "IT", "Dev", "CIPLC", "N-2"⟩)] =
      ⟨true, none, none, none⟩ :=
  ⟨Or.inl rfl, scope_admin_or_level_n_sees_all _ _ (Or.inl rfl)⟩

/-- C3: a user with no employee email, no data-scope level and no non-empty
override lists yields `{all: true}` (fail-open), whatever the hierarchy map
contains. -/
theorem scope_fail_open_no_linkage (u : UserRec) (hm : List (String × EmpRow))
    (he : optNormE u.employee_email = none)
    (hd : optNormE u.data_scope_level = none)
    (hf : ¬ listNonempty u.allowed_functions)
    (hdep : ¬ listNonempty u.allowed_departments)
    (hc : ¬ listNonempty u.allowed_companies) :
    getEffectiveScope u hm = ⟨true, none, none, none⟩ := by
  by_cases ha : u.role = some "admin"
  · simp [getEffectiveScope, ha]
  by_cases hn : u.role = some "N"
  · simp [getEffectiveScope, ha, hn]
  simp only [Bool.not_eq_true] at hf hdep hc
  simp [getEffectiveScope, ha, hn, hf, hdep, hc, he, hd]

/-- Witness for C3: a fully unlinked user against a non-empty hierarchy. -/
theorem scope_fail_open_no_linkage_witness :
    optNormE (none : Option String) = none ∧
    getEffectiveScope ⟨some "user", none, none, none, some [], none⟩
        [("a@x", ⟨"A", "1", "", "", "IT", "Dev", "CIPLC", "N"⟩)] =
      ⟨true, none, none, none⟩ :=
  ⟨by decide, scope_fail_open_no_linkage _ _ (by decide) (by decide) (by decide) (by decide)
    (by decide)⟩

/-- C1 counterexample: the claim quantifies over every user with a non-empty
`allowed_functions` override and asserts `all = false` with the override used
verbatim; but an admin user with such an override gets `{all: true}` and no
override list back, because the role rule precedes the override rule. -/
theorem override_scope_admin_counterexample :
    (getEffectiveScope ⟨some "admin", none, some "N-2", some ["Finance"], none, none⟩ []).all
        = true ∧
    (getEffectiveScope ⟨some "admin", none, some "N-2", some ["Finance"], none, none⟩
          []).allowed_functions ≠ some ["Finance"] := by
  constructor
  · decide
  · decide

/-- C1 (amended): for every user whose role is neither `"admin"` nor `"N"`
and whose `allowed_functions` override is a non-empty list, the effective
scope has `all = false` and carries that list verbatim, regardless of
`data_scope_level`, with the other allow-lists defaulting to `[]` when
unset. -/
theorem override_functions_win_over_hierarchy (u : UserRec) (hm : List (String × EmpRow))
    (l : List String)
    (hadmin : u.role ≠ some "admin") (hn : u.role ≠ some "N")
    (hf : u.allowed_functions = some l) (hne : l ≠ []) :
    getEffectiveScope u hm =
      ⟨false, some l, some (orEmpty u.allowed_departments),
        some (orEmpty u.allowed_companies)⟩ := by
  simp [getEffectiveScope, hadmin, hn, hf, listNonempty, hne, orEmpty]

/-- Witness for the amended C1: an `N-2` user with a two-function override
gets exactly that list, `all = false`, and empty other lists. -/
theorem override_functions_win_over_hierarchy_witness :
    ((some "user" : Option String) ≠ some "admin") ∧
    getEffectiveScope ⟨some "user", some "x@y", some "N-2", some ["F1", "F2"], none, none⟩ [] =
      ⟨false, some ["F1", "F2"], some [], some []⟩ :=
  ⟨by decide,
    override_functions_win_over_hierarchy _ _ _ (by decide) (by decide) rfl (by decide)⟩

/-- C8: the weekly scope filter is the identity when `scope.all` holds or
when all three allow-lists are empty (unset or `[]`). -/
theorem filter_weekly_identity (rows : List WeeklyRow) (group_by : String) (scope : EffScope)
    (h : scope.all = true ∨
      (orEmpty scope.allowed_functions = [] ∧ orEmpty scope.allowed_departments = [] ∧
        orEmpty scope.allowed_companies = [])) :
    filterWeeklyByScope rows group_by scope = rows := by
  rcases h with h | ⟨h1, h2, h3⟩
  · simp [filterWeeklyByScope, h]
  · by_cases hall : scope.all
    · simp [filterWeeklyByScope, hall]
    · simp [filterWeeklyByScope, hall, h1, h2, h3, normSetL]

/-- Witness for C8: a configured-but-empty scope passes a row list through. -/
theorem filter_weekly_identity_witness :
    orEmpty (some ([] : List String)) = [] ∧
    filterWeeklyByScope [⟨some "CIPLC - IT", some "Dev", []⟩] "function"
        ⟨false, some [], none, some []⟩ =
      [⟨some "CIPLC - IT", some "Dev", []⟩] :=
  ⟨rfl, filter_weekly_identity _ _ _ (Or.inr ⟨rfl, rfl, rfl⟩)⟩

/-- C9: the weekly scope filter only removes rows — its output is a sublist
(subsequence) of the input: rows kept unchanged, in order, never duplicated
or fabricated. -/
theorem filter_weekly_sublist (rows : List WeeklyRow) (group_by : String) (scope : EffScope) :
    List.Sublist (filterWeeklyByScope rows group_by scope) rows := by
  by_cases h1 : scope.all
  · simp [filterWeeklyByScope, h1]
  · unfold filterWeeklyByScope
    simp only [h1]
    split
    · exact List.Sublist.refl _
    · split
      · exact List.Sublist.refl _
      · exact List.filter_sublist _

/-- C10: with a non-empty hierarchy map and a non-empty employee email that
(after strip and lower) is not a key of the map, `get_subordinate_emails`
returns exactly the singleton of the normalised email. -/
theorem unknown_employee_scoped_to_self (hm : List (String × EmpRow))
    (cm : List (String × List String)) (email : String)
    (hhm : hm ≠ []) (hemail : email ≠ "")
    (hmiss : hmGet hm (pyStripLower email) = none) :
    getSubordinateEmails hm cm email = {pyStripLower email} := by
  simp [getSubordinateEmails, hhm, hemail, hmiss]

/-- Witness for C10 at a one-entry map and an unknown mixed-case email. -/
theorem unknown_employee_scoped_to_self_witness :
    ([(("a@x" : String), (⟨"", "", "", "", "", "", "", ""⟩ : EmpRow))] ≠ []) ∧
    (("B@x" : String) ≠ "") ∧
    hmGet [("a@x", ⟨"", "", "", "", "", "", "", ""⟩)] (pyStripLower "B@x") = none ∧
    getSubordinateEmails [("a@x", ⟨"", "", "", "", "", "", "", ""⟩)] [] "B@x" =
      {pyStripLower "B@x"} :=
  ⟨by decide, by decide, by decide,
    unknown_employee_scoped_to_self _ _ _ (by decide) (by decide) (by decide)⟩

/-! ### C4: per-row work-hour accumulation -/

/-- Evaluation of `hmsValue?` on a two-part `HH:MM` split. -/
theorem hmsValue_pair (s : String) (a b : List Char) (h m : ℤ)
    (hs : splitOnPred (fun c => c == ':' || c == '.') s.data = [a, b])
    (ha : pyIntChars? a = some h) (hb : pyIntChars? b = some m) :
    hmsValue? s = some ((h : ℚ) + (m : ℚ) / 60) := by
  rw [hmsValue?, hs]
  norm_num [ha, hb]

/-- Evaluation of `timeToHours` through the `HH:MM` branch. -/
theorem timeToHours_eval (s : String) (v : ℚ)
    (hne : s ≠ "") (h1 : excelSerial? (pyStrip s) = none)
    (h2 : hmsValue? (pyStrip s) = some v) : timeToHours s = v := by
  rw [timeToHours]
  simp [hne, h1, h2]

/-- `"09:00"` is nine hours. -/
theorem timeToHours_0900 : timeToHours "09:00" = 9 := by
  have h := timeToHours_eval "09:00" ((9 : ℚ) + (0 : ℚ) / 60) (by decide) (by decide)
    (hmsValue_pair _ ['0', '9'] ['0', '0'] 9 0 (by decide) (by decide) (by decide))
  norm_num at h
  exact h

/-- `"18:00"` is eighteen hours. -/
theorem timeToHours_1800 : timeToHours "18:00" = 18 := by
  have h := timeToHours_eval "18:00" ((18 : ℚ) + (0 : ℚ) / 60) (by decide) (by decide)
    (hmsValue_pair _ ['1', '8'] ['0', '0'] 18 0 (by decide) (by decide) (by decide))
  norm_num at h
  exact h

/-- `"17:00"` is seventeen hours. -/
theorem timeToHours_1700 : timeToHours "17:00" = 17 := by
  have h := timeToHours_eval "17:00" ((17 : ℚ) + (0 : ℚ) / 60) (by decide) (by decide)
    (hmsValue_pair _ ['1', '7'] ['0', '0'] 17 0 (by decide) (by decide) (by decide))
  norm_num at h
  exact h

/-- A 09:00-18:00 shift is 9 hours. -/
theorem cdh_0900_1800 : computeDurationHours (pyStrip "09:00") (pyStrip "18:00") = 9 := by
  rw [show pyStrip "09:00" = "09:00" from by decide,
    show pyStrip "18:00" = "18:00" from by decide, computeDurationHours]
  norm_num [timeToHours_0900, timeToHours_1800]

/-- A 09:00-17:00 span is 8 hours. -/
theorem cdh_0900_1700 : computeDurationHours (pyStrip "09:00") (pyStrip "17:00") = 8 := by
  rw [show pyStrip "09:00" = "09:00" from by decide,
    show pyStrip "17:00" = "17:00" from by decide, computeDurationHours]
  norm_num [timeToHours_0900, timeToHours_1700]

/-- Blank time cells give duration 0. -/
theorem cdh_blank : computeDurationHours (pyStrip "") (pyStrip "") = 0 := by
  rw [computeDurationHours]
  norm_num [show timeToHours (pyStrip "") = 0 from by decide]

/-- C4 counterexample: the claim says `(shift − work)` is added to lost-hours
exactly when `0 < work_hours < shift_hours`; but a `P` row with a 9-hour
shift and blank in/out times has `work_hours = 0` — not `0 < work_hours` —
and the code still adds the full 9 lost hours. -/
theorem weekly_lost_hours_counterexample :
    computeDurationHours (pyStrip "") (pyStrip "") = 0 ∧
    ¬ (0 < computeDurationHours (pyStrip "") (pyStrip "")) ∧
    emptyCell.lost_sum = 0 ∧
    (processRow ⟨"P", "", "09:00", "18:00", "", ""⟩ "e1" emptyCell).lost_sum = 9 := by
  refine ⟨cdh_blank, by rw [cdh_blank]; norm_num, rfl, ?_⟩
  unfold processRow
  rw [show pyStrip "P" = "P" from by decide]
  simp [apply_ite CellAcc.lost_sum, ite_self, cdh_0900_1800, cdh_blank, emptyCell]

/-- C4 (amended): for a row with trimmed `Flag` in `{P, OD}` and a nonzero
shift- or work-duration, the shift and work hours are added to the cell
sums and the work-day counter is incremented; the completed counter is
incremented exactly when `work_hours ≥ shift_hours > 0`; and
`(shift_hours − work_hours)` is added to lost-hours exactly when
`shift_hours > 0` and `work_hours < shift_hours` (including
`work_hours = 0`).  The concrete 09:00/18:00/09:00/17:00 instance is in the
witness. -/
theorem weekly_work_hour_accumulation (row : AttRow) (member_id : String) (acc : CellAcc)
    (hflag : pyStrip row.flag = "P" ∨ pyStrip row.flag = "OD")
    (hnz : 0 < computeDurationHours (pyStrip row.shift_in) (pyStrip row.shift_out) ∨
      0 < computeDurationHours (pyStrip row.in_time) (pyStrip row.out_time)) :
    (processRow row member_id acc).shift_sum =
      acc.shift_sum + computeDurationHours (pyStrip row.shift_in) (pyStrip row.shift_out) ∧
    (processRow row member_id acc).work_sum =
      acc.work_sum + computeDurationHours (pyStrip row.in_time) (pyStrip row.out_time) ∧
    (processRow row member_id acc).total_work_days = acc.total_work_days + 1 ∧
    (processRow row member_id acc).completed =
      acc.completed +
        (if computeDurationHours (pyStrip row.shift_in) (pyStrip row.shift_out) ≤
              computeDurationHours (pyStrip row.in_time) (pyStrip row.out_time) ∧
            0 < computeDurationHours (pyStrip row.shift_in) (pyStrip row.shift_out) then 1
          else 0) ∧
    (processRow row member_id acc).lost_sum =
      acc.lost_sum +
        (if 0 < computeDurationHours (pyStrip row.shift_in) (pyStrip row.shift_out) ∧
            computeDurationHours (pyStrip row.in_time) (pyStrip row.out_time) <
              computeDurationHours (pyStrip row.shift_in) (pyStrip row.shift_out) then
          computeDurationHours (pyStrip row.shift_in) (pyStrip row.shift_out) -
            computeDurationHours (pyStrip row.in_time) (pyStrip row.out_time)
        else 0) := by
  refine ⟨?_, ?_, ?_, ?_, ?_⟩
  · unfold processRow
    rcases hflag with h | h <;> rw [h] <;>
      simp [apply_ite CellAcc.shift_sum, ite_self, hnz]
  · unfold processRow
    rcases hflag with h | h <;> rw [h] <;>
      simp [apply_ite CellAcc.work_sum, ite_self, hnz]
  · unfold processRow
    rcases hflag with h | h <;> rw [h] <;>
      simp [apply_ite CellAcc.total_work_days, ite_self, hnz]
  · unfold processRow
    rcases hflag with h | h <;> rw [h] <;>
      simp [apply_ite CellAcc.completed, ite_self, hnz] <;>
      split_ifs <;> simp
  · unfold processRow
    rcases hflag with h | h <;> rw [h] <;>
      simp [apply_ite CellAcc.lost_sum, ite_self, hnz] <;>
      split_ifs <;> simp

/-- Witness for the amended C4, which is also the claim's concrete case:
`Shift In=09:00, Shift Out=18:00, In=09:00, Out=17:00, Flag=P` gives
`shift_hours = 9`, `work_hours = 8`, `lost_hours = 1`, and is not counted
completed. -/
theorem weekly_work_hour_accumulation_witness :
    computeDurationHours (pyStrip "09:00") (pyStrip "18:00") = 9 ∧
    computeDurationHours (pyStrip "09:00") (pyStrip "17:00") = 8 ∧
    (processRow ⟨"P", "", "09:00", "18:00", "09:00", "17:00"⟩ "e1" emptyCell).shift_sum = 9 ∧
    (processRow ⟨"P", "", "09:00", "18:00", "09:00", "17:00"⟩ "e1" emptyCell).work_sum = 8 ∧
    (processRow ⟨"P", "", "09:00", "18:00", "09:00", "17:00"⟩ "e1" emptyCell).lost_sum = 1 ∧
    (processRow ⟨"P", "", "09:00", "18:00", "09:00", "17:00"⟩ "e1" emptyCell).completed = 0 := by
  have h := weekly_work_hour_accumulation ⟨"P", "", "09:00", "18:00", "09:00", "17:00"⟩ "e1"
    emptyCell (Or.inl (by decide)) (Or.inl (by rw [show pyStrip (AttRow.shift_in
      ⟨"P", "", "09:00", "18:00", "09:00", "17:00"⟩) = pyStrip "09:00" from rfl,
      show pyStrip (AttRow.shift_out ⟨"P", "", "09:00", "18:00", "09:00", "17:00"⟩) =
        pyStrip "18:00" from rfl, cdh_0900_1800]; norm_num))
  dsimp only at h
  obtain ⟨h1, h2, h3, h4, h5⟩ := h
  rw [cdh_0900_1800] at h1 h4 h5
  rw [cdh_0900_1700] at h2 h4 h5
  refine ⟨cdh_0900_1800, cdh_0900_1700, ?_, ?_, ?_, ?_⟩
  · rw [h1]; norm_num [emptyCell]
  · rw [h2]; norm_num [emptyCell]
  · rw [h5]; norm_num [emptyCell]
  · rw [h4]; norm_num [emptyCell]

/-! ### C7: employee-code normalization -/

-- C7 helper experiments
theorem takeWhile_eq_self_of_all {p : Char → Bool} {l : List Char}
    (h : ∀ x ∈ l, p x = true) : l.takeWhile p = l := by
  induction l with
  | nil => rfl
  | cons x xs ih =>
    rw [List.takeWhile_cons, h x (by simp)]
    simp [ih (fun y hy => h y (by simp [hy]))]

theorem dropWhile_eq_nil_of_all {p : Char → Bool} {l : List Char}
    (h : ∀ x ∈ l, p x = true) : l.dropWhile p = [] := by
  induction l with
  | nil => rfl
  | cons x xs ih =>
    rw [List.dropWhile_cons, h x (by simp)]
    simp [ih (fun y hy => h y (by simp [hy]))]

theorem pyFloatCore_allDigits (l : List Char) (hne : l ≠ [])
    (hd : ∀ x ∈ l, x.isDigit = true) :
    pyFloatCore l = some (digitsToNat l : ℚ) := by
  obtain ⟨c, cs, rfl⟩ := List.exists_cons_of_ne_nil hne
  have hc := hd c (by simp)
  have hplus : c ≠ '+' := by intro h; rw [h] at hc; exact absurd hc (by decide)
  have hminus : c ≠ '-' := by intro h; rw [h] at hc; exact absurd hc (by decide)
  rw [pyFloatCore]
  simp only [List.headD_cons, hplus, hminus, or_self, if_neg, ite_false,
    takeWhile_eq_self_of_all hd, dropWhile_eq_nil_of_all hd]
  norm_num [List.headD, digitsToNat]
  intro h
  exact absurd h (List.cons_ne_nil c cs)


theorem takeWhile_append_stop {p : Char → Bool} (a : List Char) (c : Char) (b : List Char)
    (ha : ∀ x ∈ a, p x = true) (hc : p c = false) :
    (a ++ c :: b).takeWhile p = a ∧ (a ++ c :: b).dropWhile p = c :: b := by
  induction a with
  | nil => simp [List.takeWhile_cons, List.dropWhile_cons, hc]
  | cons x xs ih =>
    have hx := ha x (by simp)
    have ih2 := ih (fun y hy => ha y (by simp [hy]))
    simp [List.takeWhile_cons, List.dropWhile_cons, hx, ih2.1, ih2.2]

theorem pyFloatCore_decimal (a b : List Char) (hne : a ≠ [])
    (hda : ∀ x ∈ a, x.isDigit = true) (hdb : ∀ x ∈ b, x.isDigit = true) :
    pyFloatCore (a ++ '.' :: b) =
      some ((digitsToNat a : ℚ) + (digitsToNat b : ℚ) / (10 : ℚ) ^ b.length) := by
  obtain ⟨c, cs, rfl⟩ := List.exists_cons_of_ne_nil hne
  have hc := hda c (by simp)
  have hplus : c ≠ '+' := fun h => absurd hc (by rw [h]; decide)
  have hminus : c ≠ '-' := fun h => absurd hc (by rw [h]; decide)
  have htw := takeWhile_append_stop (c :: cs) '.' b hda (by decide)
  have h1 : List.takeWhile Char.isDigit (c :: (cs ++ '.' :: b)) = c :: cs := by
    simpa using htw.1
  have h2 : List.dropWhile Char.isDigit (c :: (cs ++ '.' :: b)) = '.' :: b := by
    simpa using htw.2
  rw [pyFloatCore]
  simp [h1, h2, hplus, hminus, takeWhile_eq_self_of_all hdb, dropWhile_eq_nil_of_all hdb]

theorem pyFloatQ_11410 : pyFloatQ? "11410" = some 11410 := by
  rw [pyFloatQ?, show trimWs "11410".data = ['1', '1', '4', '1', '0'] from by decide,
    pyFloatCore_allDigits _ (by decide) (by decide)]
  rw [show digitsToNat ['1', '1', '4', '1', '0'] = 11410 from by decide]
  norm_num

theorem pyFloatQ_11410_0 : pyFloatQ? "11410.0" = some 11410 := by
  rw [pyFloatQ?, show trimWs "11410.0".data = ['1', '1', '4', '1', '0', '.', '0'] from by decide,
    show (['1', '1', '4', '1', '0', '.', '0'] : List Char) =
      ['1', '1', '4', '1', '0'] ++ '.' :: ['0'] from rfl,
    pyFloatCore_decimal _ _ (by decide) (by decide) (by decide)]
  rw [show digitsToNat ['1', '1', '4', '1', '0'] = 11410 from by decide,
    show digitsToNat ['0'] = 0 from by decide]
  norm_num

theorem ratTrunc_ofNat (n : ℕ) : ratTrunc (n : ℚ) = n := by
  simp [ratTrunc, Rat.num_natCast, Rat.den_natCast, Int.tdiv_one]

theorem normCode_eval_float (s : String) (v : ℚ)
    (hd : digitCondition (pyLower (pyStrip s)) = true)
    (hf : pyFloatQ? (pyStrip s) = some v) :
    normEmployeeCode s = intToString (ratTrunc v) := by
  have hs : pyStrip s ≠ "" := by
    intro h; rw [h] at hd; exact absurd hd (by decide)
  simp [normEmployeeCode, hs, hd, hf]

theorem normCode_eval_nodigit (t : String)
    (hnd : digitCondition (pyLower (pyStrip t)) = false) :
    normEmployeeCode t = pyLower (pyStrip t) := by
  by_cases hs : pyStrip t = ""
  · rw [hs]; simp [normEmployeeCode, hs]; decide
  · simp [normEmployeeCode, hs, hnd]

theorem normCode_eval_nofloat (u : String)
    (hud : digitCondition (pyLower (pyStrip u)) = true)
    (huf : pyFloatQ? (pyStrip u) = none) :
    normEmployeeCode u = pyLower (pyStrip u) := by
  have hs : pyStrip u ≠ "" := by
    intro h; rw [h] at hud; exact absurd hud (by decide)
  simp [normEmployeeCode, hs, hud, huf]

theorem normCode_11410 : normEmployeeCode "11410" = "11410" := by
  rw [normCode_eval_float "11410" 11410 (by decide) pyFloatQ_11410,
    show ((11410 : ℚ)) = ((11410 : ℕ) : ℚ) from by norm_num, ratTrunc_ofNat]
  decide

theorem normCode_11410_0 : normEmployeeCode "11410.0" = "11410" := by
  rw [normCode_eval_float "11410.0" 11410 (by decide) pyFloatQ_11410_0,
    show ((11410 : ℚ)) = ((11410 : ℕ) : ℚ) from by norm_num, ratTrunc_ofNat]
  decide

/-- C7 counterexample: the claim says `str(int(float(s)))` is returned
whenever the trimmed string with dots and spaces removed is all digits; but
for `"1 2"` the digit condition holds while `float("1 2")` raises, so no such
value exists and the code returns the lowered trimmed original instead. -/
theorem employee_code_norm_counterexample :
    digitCondition (pyLower (pyStrip "1 2")) = true ∧
    pyFloatQ? (pyStrip "1 2") = none ∧
    normEmployeeCode "1 2" = "1 2" :=
  ⟨by decide, by decide, by decide⟩

/-- C7 (amended): employee-code normalization returns `str(int(float(s)))`
whenever the digit condition holds AND `s` parses as a float; when the digit
condition fails, or it holds but the float parse fails, the lower-cased
trimmed original is returned; `"11410"` and `"11410.0"` normalize to the
same string, `"11410"`. -/
theorem employee_code_normalization (s t u : String) (v : ℚ)
    (hd : digitCondition (pyLower (pyStrip s)) = true)
    (hf : pyFloatQ? (pyStrip s) = some v)
    (hnd : digitCondition (pyLower (pyStrip t)) = false)
    (hud : digitCondition (pyLower (pyStrip u)) = true)
    (huf : pyFloatQ? (pyStrip u) = none) :
    normEmployeeCode s = intToString (ratTrunc v) ∧
    normEmployeeCode t = pyLower (pyStrip t) ∧
    normEmployeeCode u = pyLower (pyStrip u) ∧
    normEmployeeCode "11410" = normEmployeeCode "11410.0" ∧
    normEmployeeCode "11410" = "11410" :=
  ⟨normCode_eval_float s v hd hf, normCode_eval_nodigit t hnd, normCode_eval_nofloat u hud huf,
    by rw [normCode_11410, normCode_11410_0], normCode_11410⟩

/-- Witness for the amended C7 at `s = "11410.0"`, `t = "ab"`, `u = "1 2"`. -/
theorem employee_code_normalization_witness :
    pyFloatQ? (pyStrip "11410.0") = some 11410 ∧
    normEmployeeCode "11410.0" = intToString (ratTrunc 11410) ∧
    intToString (ratTrunc 11410) = "11410" :=
  ⟨by rw [show pyStrip "11410.0" = "11410.0" from by decide]; exact pyFloatQ_11410_0,
    (employee_code_normalization "11410.0" "ab" "1 2" 11410
      (by decide)
      (by rw [show pyStrip "11410.0" = "11410.0" from by decide]; exact pyFloatQ_11410_0)
      (by decide) (by decide) (by decide)).1,
    by
      rw [show ((11410 : ℚ)) = ((11410 : ℕ) : ℚ) from by norm_num, ratTrunc_ofNat]
      decide⟩

/-! ### C5 helper lemmas: association-list dictionaries -/

theorem dictGet_cons {a b k : String} {m : List (String × String)} :
    dictGet ((a, b) :: m) k = if a = k then some b else dictGet m k := by
  by_cases h : a = k
  · rw [dictGet, List.find?_cons_of_pos _ (by simp [h]), if_pos h]
    rfl
  · rw [dictGet, List.find?_cons_of_neg _ (by simp [h]), if_neg h]
    rfl

theorem keyMemL_cons {a b k : String} {m : List (String × String)} :
    keyMemL ((a, b) :: m) k = ((a == k) || keyMemL m k) := by
  simp [keyMemL]

theorem dictGet_append_left {m m2 : List (String × String)} {k v : String}
    (h : dictGet m k = some v) : dictGet (m ++ m2) k = some v := by
  induction m with
  | nil => simp [dictGet] at h
  | cons x xs ih =>
    obtain ⟨a, b⟩ := x
    rw [dictGet_cons] at h
    rw [List.cons_append, dictGet_cons]
    by_cases hx : a = k
    · rwa [if_pos hx] at h ⊢
    · rw [if_neg hx] at h ⊢
      exact ih h

theorem dictGet_none_append {m m2 : List (String × String)} {k : String}
    (h : dictGet m k = none) : dictGet (m ++ m2) k = dictGet m2 k := by
  induction m with
  | nil => simp
  | cons x xs ih =>
    obtain ⟨a, b⟩ := x
    rw [dictGet_cons] at h
    rw [List.cons_append, dictGet_cons]
    by_cases hx : a = k
    · rw [if_pos hx] at h; cases h
    · rw [if_neg hx] at h
      rw [if_neg hx]
      exact ih h

theorem dictGet_mem {m : List (String × String)} {k v : String}
    (h : dictGet m k = some v) : (k, v) ∈ m := by
  induction m with
  | nil => simp [dictGet] at h
  | cons x xs ih =>
    obtain ⟨a, b⟩ := x
    rw [dictGet_cons] at h
    by_cases hx : a = k
    · rw [if_pos hx] at h
      injection h with h2
      subst hx
      subst h2
      exact List.mem_cons_self _ _
    · rw [if_neg hx] at h
      exact List.mem_cons_of_mem _ (ih h)

theorem keyMemL_iff_mem {m : List (String × String)} {k : String} :
    keyMemL m k = true ↔ k ∈ m.map Prod.fst := by
  induction m with
  | nil => simp [keyMemL]
  | cons x xs ih =>
    obtain ⟨a, b⟩ := x
    rw [keyMemL_cons]
    simp only [List.map_cons, List.mem_cons, Bool.or_eq_true, beq_iff_eq]
    rw [ih]
    constructor
    · rintro (h | h)
      · exact Or.inl h.symm
      · exact Or.inr h
    · rintro (h | h)
      · exact Or.inl h.symm
      · exact Or.inr h

theorem keyMemL_false_iff_none {m : List (String × String)} {k : String} :
    keyMemL m k = false ↔ dictGet m k = none := by
  induction m with
  | nil => simp [keyMemL, dictGet]
  | cons x xs ih =>
    obtain ⟨a, b⟩ := x
    rw [keyMemL_cons, dictGet_cons]
    by_cases hx : a = k
    · simp [hx]
    · simp only [if_neg hx, Bool.or_eq_false_iff]
      rw [← ih]
      simp [hx]

theorem keyMemL_some {m : List (String × String)} {k : String}
    (h : keyMemL m k = true) : ∃ v, dictGet m k = some v := by
  rcases ho : dictGet m k with _ | v
  · rw [← keyMemL_false_iff_none] at ho
    rw [h] at ho
    cases ho
  · exact ⟨v, rfl⟩

theorem dictGet_const_map {xs : List String} {k c : String} (h : k ∈ xs) :
    dictGet (xs.map (fun e => (e, c))) k = some c := by
  induction xs with
  | nil => cases h
  | cons x ys ih =>
    rw [List.map_cons, dictGet_cons]
    by_cases hx : x = k
    · rw [if_pos hx]
    · rw [if_neg hx]
      rcases List.mem_cons.mp h with h | h
      · exact absurd h.symm hx
      · exact ih h

theorem keyMemL_append {a b : List (String × String)} {k : String} :
    keyMemL (a ++ b) k = (keyMemL a k || keyMemL b k) := by
  simp [keyMemL, List.any_append]

/-! ### C5 helper lemmas: decimal digits and `next_level` arithmetic -/

theorem digitChar_spec {n : ℕ} (h : n < 10) :
    (Nat.digitChar n).isDigit = true ∧ (Nat.digitChar n).toNat - 48 = n ∧
    Nat.digitChar n ≠ '+' ∧ Nat.digitChar n ≠ '-' ∧ isWsChar (Nat.digitChar n) = false := by
  interval_cases n <;> refine ⟨by decide, by decide, by decide, by decide, by decide⟩

theorem digitsToNat_concat (xs : List Char) (c : Char) :
    digitsToNat (xs ++ [c]) = 10 * digitsToNat xs + (c.toNat - 48) := by
  simp [digitsToNat, List.foldl_append, Nat.mul_comm]

theorem natToDigitsAux_spec : ∀ fuel n, n < fuel →
    natToDigitsAux fuel n ≠ [] ∧ (∀ c ∈ natToDigitsAux fuel n, c.isDigit = true) ∧
    digitsToNat (natToDigitsAux fuel n) = n := by
  intro fuel
  induction fuel with
  | zero => intro n h; omega
  | succ f ih =>
    intro n h
    by_cases h10 : n < 10
    · rw [natToDigitsAux, if_pos h10]
      refine ⟨by simp, ?_, ?_⟩
      · intro c hc
        rw [List.mem_singleton] at hc
        subst hc
        exact (digitChar_spec h10).1
      · have := (digitChar_spec h10).2.1
        simp [digitsToNat, this]
    · rw [natToDigitsAux, if_neg h10]
      have hdiv : n / 10 < f := by omega
      obtain ⟨hne, hdig, hval⟩ := ih (n / 10) hdiv
      have hmod : n % 10 < 10 := Nat.mod_lt _ (by omega)
      refine ⟨by simp, ?_, ?_⟩
      · intro c hc
        rcases List.mem_append.mp hc with hc | hc
        · exact hdig c hc
        · rw [List.mem_singleton] at hc
          subst hc
          exact (digitChar_spec hmod).1
      · rw [digitsToNat_concat, hval, (digitChar_spec hmod).2.1]
        omega

theorem natToChars_spec (n : ℕ) :
    natToChars n ≠ [] ∧ (∀ c ∈ natToChars n, c.isDigit = true) ∧
    digitsToNat (natToChars n) = n :=
  natToDigitsAux_spec (n + 1) n (by omega)

theorem trimWs_eq_self_of_all {l : List Char} (h : ∀ c ∈ l, isWsChar c = false) :
    trimWs l = l := by
  have h1 : ∀ {m : List Char}, (∀ c ∈ m, isWsChar c = false) → m.dropWhile isWsChar = m := by
    intro m hm
    cases m with
    | nil => rfl
    | cons x xs => simp [List.dropWhile_cons, hm x (by simp)]
  rw [trimWs, h1 h, h1 (fun c hc => h c (List.mem_reverse.mp hc)), List.reverse_reverse]

theorem digit_not_ws {c : Char} (h : c.isDigit = true) : isWsChar c = false := by
  by_contra hne
  have hws : isWsChar c = true := by
    revert hne; cases isWsChar c <;> simp
  have hcases : ((((c = ' ' ∨ c = '\t') ∨ c = '\n') ∨ c = '\r') ∨ c = '\x0b') ∨ c = '\x0c' := by
    simpa [isWsChar, Bool.or_eq_true, beq_iff_eq] using hws
  rcases hcases with ((((h2 | h2) | h2) | h2) | h2) | h2 <;> rw [h2] at h <;>
    exact absurd h (by decide)

theorem digit_not_sign {c : Char} (h : c.isDigit = true) : c ≠ '+' ∧ c ≠ '-' := by
  constructor <;> intro he <;> rw [he] at h <;> exact absurd h (by decide)

theorem pyIntChars_natToChars (n : ℕ) : pyIntChars? (natToChars n) = some (n : ℤ) := by
  obtain ⟨hne, hdig, hval⟩ := natToChars_spec n
  obtain ⟨c, cs, hcons⟩ := List.exists_cons_of_ne_nil hne
  have htrim : trimWs (natToChars n) = natToChars n :=
    trimWs_eq_self_of_all (fun c hc => digit_not_ws (hdig c hc))
  have hcd : c.isDigit = true := hdig c (by rw [hcons]; exact List.mem_cons_self _ _)
  obtain ⟨hp, hm2⟩ := digit_not_sign hcd
  have hall : (c :: cs).all Char.isDigit = true := by
    rw [List.all_eq_true]
    intro x hx
    exact hdig x (by rw [hcons]; exact hx)
  rw [pyIntChars?, htrim, hcons]
  simp only [if_neg hp, if_neg hm2, digitsVal?, if_pos (And.intro (List.cons_ne_nil c cs) hall)]
  rw [show digitsToNat (c :: cs) = n from by rw [← hcons]; exact hval]
  rfl

theorem splitOnPred_no_split {p : Char → Bool} {l : List Char}
    (h : ∀ c ∈ l, p c = false) : splitOnPred p l = [l] := by
  induction l with
  | nil => rfl
  | cons x xs ih =>
    rw [splitOnPred]
    simp [h x (by simp), ih (fun c hc => h c (by simp [hc]))]

theorem levelCharsOfNat_succ (k : ℕ) :
    levelCharsOfNat (k + 1) = 'N' :: '-' :: natToChars (k + 1) := by
  rw [levelCharsOfNat, if_neg (by omega)]
  rfl

theorem nextLevelData_levelChars (k : ℕ) :
    nextLevelData (levelCharsOfNat (k + 1)) = levelCharsOfNat (k + 2) := by
  obtain ⟨hne, hdig, hval⟩ := natToChars_spec (k + 1)
  rw [levelCharsOfNat_succ]
  have hnotN : ('N' :: '-' :: natToChars (k + 1)) ≠ ['N'] := by
    intro h
    have := congrArg List.length h
    simp at this
  have hrest : splitOnPred (fun x => x == '-') (natToChars (k + 1)) = [natToChars (k + 1)] :=
    splitOnPred_no_split
      (fun c hc => beq_eq_false_iff_ne.mpr ((digit_not_sign (hdig c hc)).2))
  have hsplit : splitOnChar '-' ('N' :: '-' :: natToChars (k + 1)) =
      [['N'], natToChars (k + 1)] := by
    simp [splitOnChar, splitOnPred, hrest]
  rw [nextLevelData, if_neg hnotN, hsplit]
  simp only [pyIntChars_natToChars]
  have hint : ((k + 1 : ℕ) : ℤ) + 1 = ((k + 2 : ℕ) : ℤ) := by push_cast; ring
  rw [hint, intToChars, if_neg (not_lt.mpr (Int.natCast_nonneg _)), Int.toNat_natCast]
  rw [levelCharsOfNat, if_neg (by omega)]

theorem nextLevel_levelStr (k : ℕ) : nextLevel (levelStrOfNat k) = levelStrOfNat (k + 1) := by
  cases k with
  | zero => decide
  | succ j =>
    rw [nextLevel, levelStrOfNat, levelStrOfNat]
    exact congrArg String.mk (nextLevelData_levelChars j)

theorem levelSuffix_levelStr (k : ℕ) : levelSuffix (levelStrOfNat k) = some k := by
  cases k with
  | zero => decide
  | succ j =>
    obtain ⟨hne, hdig, hval⟩ := natToChars_spec (j + 1)
    rw [levelSuffix, levelStrOfNat]
    have hdata : (String.mk (levelCharsOfNat (j + 1))).data =
        'N' :: '-' :: natToChars (j + 1) := by
      rw [levelCharsOfNat_succ]
    rw [hdata]
    have hne2 : ('N' :: '-' :: natToChars (j + 1)) ≠ ['N'] := by
      intro h
      have := congrArg List.length h
      simp at this
    rw [if_neg hne2]
    have htake : List.take 2 ('N' :: '-' :: natToChars (j + 1)) = ['N', '-'] := rfl
    have hdrop : List.drop 2 ('N' :: '-' :: natToChars (j + 1)) = natToChars (j + 1) := rfl
    rw [htake, hdrop, if_pos rfl, digitsVal?, if_pos ⟨hne, List.all_eq_true.mpr hdig⟩, hval]

/-! ### C5 helper lemmas: BFS behaviour -/

theorem keyMemL_of_dictGet {m : List (String × String)} {k v : String}
    (h : dictGet m k = some v) : keyMemL m k = true := by
  cases hb : keyMemL m k
  · rw [keyMemL_false_iff_none] at hb
    rw [h] at hb
    cases hb
  · rfl

theorem entryOk_mono {R : List String} {cm : List (String × List String)}
    {m m' : List (String × String)} {e l : String}
    (hmono : ∀ k v, dictGet m k = some v → dictGet m' k = some v)
    (h : entryOk R cm m e l) : entryOk R cm m' e l := by
  rcases h with h | ⟨p, lp, h1, h2, h3⟩
  · exact Or.inl h
  · exact Or.inr ⟨p, lp, hmono _ _ h1, h2, h3⟩

theorem bfsLevels_mono (cm : List (String × List String)) :
    ∀ fuel q seen lm k v, dictGet lm k = some v →
      dictGet (bfsLevelsFuel cm fuel q seen lm) k = some v := by
  intro fuel
  induction fuel with
  | zero => intro q seen lm k v h; exact h
  | succ f ih =>
    intro q seen lm k v h
    cases q with
    | nil => exact h
    | cons pr q' =>
      obtain ⟨e, l⟩ := pr
      rw [bfsLevelsFuel]
      by_cases hs : e ∈ seen
      · rw [if_pos hs]
        exact ih _ _ _ _ _ h
      · rw [if_neg hs]
        exact ih _ _ _ _ _ (dictGet_append_left h)

theorem bfsLevels_processed (cm : List (String × List String)) :
    ∀ fuel (q : List (String × String)) seen lm,
    (∀ x ∈ seen, keyMemL lm x = true) →
    ∀ i (hi : i < q.length), i < fuel →
    keyMemL (bfsLevelsFuel cm fuel q seen lm) (q[i].1) = true := by
  intro fuel
  induction fuel with
  | zero => intro q seen lm hS i hi hf; omega
  | succ f ih =>
    intro q seen lm hS i hi hf
    cases q with
    | nil => simp at hi
    | cons pr q' =>
      obtain ⟨e, l⟩ := pr
      rw [bfsLevelsFuel]
      by_cases hs : e ∈ seen
      · rw [if_pos hs]
        cases i with
        | zero =>
          obtain ⟨v, hv⟩ := keyMemL_some (hS e hs)
          exact keyMemL_of_dictGet (bfsLevels_mono cm f q' seen lm e v hv)
        | succ j =>
          have hj : j < q'.length := by simpa using hi
          have hres := ih q' seen lm hS j hj (by omega)
          simpa using hres
      · rw [if_neg hs]
        have hup : ∀ x ∈ e :: seen, keyMemL (lm ++ [(e, l)]) x = true := by
          intro x hx
          rcases List.mem_cons.mp hx with hx | hx
          · subst hx
            rw [keyMemL_append]
            have : keyMemL [(x, l)] x = true := by
              rw [keyMemL_cons]
              simp
            rw [this]
            simp
          · rw [keyMemL_append, hS x hx]
            simp
        cases i with
        | zero =>
          have hkey : keyMemL (lm ++ [(e, l)]) e = true := hup e (List.mem_cons_self _ _)
          obtain ⟨v, hv⟩ := keyMemL_some hkey
          exact keyMemL_of_dictGet (bfsLevels_mono cm f _ _ _ e v hv)
        | succ j =>
          have hj : j < q'.length := by simpa using hi
          have hj2 : j < (q' ++ (childLookup cm e).map (fun c => (c, nextLevel l))).length := by
            rw [List.length_append]
            omega
          have hres := ih (q' ++ (childLookup cm e).map (fun c => (c, nextLevel l)))
            (e :: seen) (lm ++ [(e, l)]) hup j hj2 (by omega)
          rw [List.getElem_append_left hj] at hres
          simpa using hres

theorem bfsLevels_sound (R : List String) (cm : List (String × List String)) :
    ∀ fuel q seen lm,
    (∀ pr ∈ q, entryOk R cm lm pr.1 pr.2 ∧ canonLevel pr.2) →
    (∀ pr ∈ lm, entryOk R cm lm pr.1 pr.2 ∧ canonLevel pr.2) →
    (∀ x, x ∈ seen ↔ keyMemL lm x = true) →
    ∀ pr ∈ bfsLevelsFuel cm fuel q seen lm,
      entryOk R cm (bfsLevelsFuel cm fuel q seen lm) pr.1 pr.2 ∧ canonLevel pr.2 := by
  intro fuel
  induction fuel with
  | zero => intro q seen lm _ hm _ pr hpr; exact hm pr hpr
  | succ f ih =>
    intro q seen lm hq hm hseen
    cases q with
    | nil => intro pr hpr; exact hm pr hpr
    | cons pr0 q'
    =>
      obtain ⟨e, l⟩ := pr0
      rw [bfsLevelsFuel]
      by_cases hs : e ∈ seen
      · rw [if_pos hs]
        exact ih q' seen lm (fun pr hpr => hq pr (List.mem_cons_of_mem _ hpr)) hm hseen
      · rw [if_neg hs]
        have hfresh : keyMemL lm e = false := by
          cases hb : keyMemL lm e
          · rfl
          · exact absurd ((hseen e).mpr hb) hs
        have hget : dictGet (lm ++ [(e, l)]) e = some l := by
          rw [dictGet_none_append (keyMemL_false_iff_none.mp hfresh), dictGet_cons, if_pos rfl]
        have hmono : ∀ k v, dictGet lm k = some v → dictGet (lm ++ [(e, l)]) k = some v :=
          fun k v h => dictGet_append_left h
        have hhead := hq (e, l) (List.mem_cons_self _ _)
        refine ih (q' ++ (childLookup cm e).map (fun c => (c, nextLevel l)))
          (e :: seen) (lm ++ [(e, l)]) ?_ ?_ ?_
        · intro pr hpr
          rcases List.mem_append.mp hpr with hpr | hpr
          · obtain ⟨ho, hc⟩ := hq pr (List.mem_cons_of_mem _ hpr)
            exact ⟨entryOk_mono hmono ho, hc⟩
          · obtain ⟨c, hc, rfl⟩ := List.mem_map.mp hpr
            obtain ⟨kk, hkk⟩ := hhead.2
            refine ⟨Or.inr ⟨e, l, hget, hc, rfl⟩, ⟨kk + 1, ?_⟩⟩
            show nextLevel l = levelStrOfNat (kk + 1)
            rw [show l = levelStrOfNat kk from hkk, nextLevel_levelStr]
        · intro pr hpr
          rcases List.mem_append.mp hpr with hpr | hpr
          · obtain ⟨ho, hc⟩ := hm pr hpr
            exact ⟨entryOk_mono hmono ho, hc⟩
          · rw [List.mem_singleton] at hpr
            subst hpr
            exact ⟨entryOk_mono hmono hhead.1, hhead.2⟩
        · intro x
          rw [keyMemL_append]
          constructor
          · intro hx
            rcases List.mem_cons.mp hx with hx | hx
            · subst hx
              have : keyMemL [(x, l)] x = true := by
                rw [keyMemL_cons]; simp
              rw [this]
              simp
            · rw [(hseen x).mp hx]
              simp
          · intro hx
            simp only [Bool.or_eq_true] at hx
            rcases hx with hx | hx
            · exact List.mem_cons_of_mem _ ((hseen x).mpr hx)
            · rw [keyMemL_cons] at hx
              simp only [keyMemL, List.any_nil, Bool.or_false] at hx
              have : e = x := by simpa using hx
              subst this
              exact List.mem_cons_self _ _

/-! ### C5 helper lemmas: child map and roots -/

theorem childLookup_cons {a : String} {b : List String} {k : String}
    {m : List (String × List String)} :
    childLookup ((a, b) :: m) k = if a = k then b else childLookup m k := by
  by_cases h : a = k
  · rw [childLookup, List.find?_cons_of_pos _ (by simp [h]), if_pos h]
  · rw [childLookup, List.find?_cons_of_neg _ (by simp [h]), if_neg h]
    rfl

theorem childLookup_addChild (cm : List (String × List String)) (p e p' : String) :
    childLookup (addChild cm p e) p' =
      if p' = p then childLookup cm p' ++ [e] else childLookup cm p' := by
  induction cm with
  | nil =>
    rw [addChild]
    by_cases h : p' = p
    · subst h
      rw [if_pos rfl, childLookup_cons, if_pos rfl]
      rfl
    · rw [if_neg h, childLookup_cons, if_neg (fun he => h he.symm)]
  | cons x xs ih =>
    obtain ⟨k, ls⟩ := x
    rw [addChild]
    by_cases hk : k = p
    · rw [if_pos hk]
      subst hk
      by_cases h : p' = k
      · subst h
        rw [if_pos rfl, childLookup_cons, if_pos rfl, childLookup_cons, if_pos rfl]
      · rw [if_neg h, childLookup_cons, if_neg (fun he => h he.symm),
          childLookup_cons, if_neg (fun he => h he.symm)]
    · rw [if_neg hk]
      by_cases h : p' = p
      · subst h
        rw [if_pos rfl, childLookup_cons, childLookup_cons]
        by_cases h2 : k = p'
        · exact absurd h2 hk
        · rw [if_neg h2, if_neg h2, ih, if_pos rfl]
      · rw [if_neg h, childLookup_cons, childLookup_cons]
        by_cases h2 : k = p'
        · rw [if_pos h2, if_pos h2]
        · rw [if_neg h2, if_neg h2, ih, if_neg h]

theorem childMap_fold_mem (rows : List (String × EmpRow)) :
    ∀ (l : List (String × EmpRow)) (cm0 : List (String × List String)) (p e : String),
    e ∈ childLookup (l.foldl (fun cm pr =>
        match keepParent rows pr.2 with
        | some pe => addChild cm pe pr.1
        | none => cm) cm0) p ↔
      e ∈ childLookup cm0 p ∨ ∃ r, (e, r) ∈ l ∧ keepParent rows r = some p := by
  intro l
  induction l with
  | nil => intro cm0 p e; simp
  | cons x t ih =>
    intro cm0 p e
    obtain ⟨x1, x2⟩ := x
    rw [List.foldl_cons]
    rcases hk : keepParent rows x2 with _ | pe
    · simp only [hk]
      rw [ih]
      constructor
      · rintro (h | ⟨r, hr, hkr⟩)
        · exact Or.inl h
        · exact Or.inr ⟨r, List.mem_cons_of_mem _ hr, hkr⟩
      · rintro (h | ⟨r, hr, hkr⟩)
        · exact Or.inl h
        · rcases List.mem_cons.mp hr with hr | hr
          · injection hr with he1 he2
            subst he1
            subst he2
            rw [hk] at hkr
            cases hkr
          · exact Or.inr ⟨r, hr, hkr⟩
    · simp only [hk]
      rw [ih]
      rw [childLookup_addChild]
      constructor
      · rintro (h | ⟨r, hr, hkr⟩)
        · by_cases hp : p = pe
          · rw [if_pos hp] at h
            rcases List.mem_append.mp h with h | h
            · exact Or.inl h
            · rw [List.mem_singleton] at h
              subst h
              exact Or.inr ⟨x2, List.mem_cons_self _ _, by rw [hk, hp]⟩
          · rw [if_neg hp] at h
            exact Or.inl h
        · exact Or.inr ⟨r, List.mem_cons_of_mem _ hr, hkr⟩
      · rintro (h | ⟨r, hr, hkr⟩)
        · by_cases hp : p = pe
          · rw [if_pos hp]
            exact Or.inl (List.mem_append.mpr (Or.inl h))
          · rw [if_neg hp]
            exact Or.inl h
        · rcases List.mem_cons.mp hr with hr | hr
          · injection hr with he1 he2
            subst he1
            subst he2
            rw [hk] at hkr
            injection hkr with he3
            subst he3
            rw [if_pos rfl]
            exact Or.inl (List.mem_append.mpr (Or.inr (List.mem_singleton.mpr rfl)))
          · exact Or.inr ⟨r, hr, hkr⟩

theorem childLookup_buildChildMap_iff {rows : List (String × EmpRow)} {p e : String} :
    e ∈ childLookup (buildChildMap rows) p ↔
      ∃ r, (e, r) ∈ rows ∧ keepParent rows r = some p := by
  rw [buildChildMap, childMap_fold_mem rows rows [] p e]
  simp [childLookup]

theorem hmGet_of_mem_nodup {rows : List (String × EmpRow)} {e : String} {r : EmpRow}
    (hnd : (rows.map Prod.fst).Nodup) (h : (e, r) ∈ rows) : hmGet rows e = some r := by
  induction rows with
  | nil => cases h
  | cons x xs ih =>
    obtain ⟨a, b⟩ := x
    rw [List.map_cons, List.nodup_cons] at hnd
    rcases List.mem_cons.mp h with h | h
    · injection h with h1 h2
      subst h1
      subst h2
      rw [hmGet, List.find?_cons_of_pos _ (by simp)]
      rfl
    · have hne : a ≠ e := by
        intro he
        subst he
        exact hnd.1 (List.mem_map.mpr ⟨(a, r), h, rfl⟩)
      rw [hmGet, List.find?_cons_of_neg _ (by simp [hne])]
      exact ih hnd.2 h

theorem keepParent_none_of_root {rows : List (String × EmpRow)} {row : EmpRow}
    (h : rootCondB rows row = true) : keepParent rows row = none := by
  rw [rootCondB] at h
  rw [keepParent]
  rcases hp : parentEmail rows row with _ | p
  · rfl
  · rw [hp] at h
    simp only [decide_eq_true_eq] at h
    show (if p ≠ "" ∧ keyMem rows p = true then some p else none) = none
    rw [if_neg]
    intro ⟨h1, h2⟩
    rcases h with h | h
    · exact h1 h
    · exact h h2

theorem mem_rootsOf {rows : List (String × EmpRow)} {r0 : String} :
    r0 ∈ rootsOf rows ↔ ∃ row, (r0, row) ∈ rows ∧ rootCondB rows row = true := by
  rw [rootsOf]
  constructor
  · intro h
    obtain ⟨pr, hpr, he⟩ := List.mem_map.mp h
    obtain ⟨hmem, hcond⟩ := List.mem_filter.mp hpr
    subst he
    exact ⟨pr.2, by simpa using hmem, by simpa using hcond⟩
  · rintro ⟨row, hmem, hcond⟩
    exact List.mem_map.mpr ⟨(r0, row), List.mem_filter.mpr ⟨hmem, by simpa using hcond⟩, rfl⟩

theorem root_no_edge {rows : List (String × EmpRow)}
    (hnd : (rows.map Prod.fst).Nodup) {r0 p : String} (hr : r0 ∈ rootsOf rows) :
    r0 ∉ childLookup (buildChildMap rows) p := by
  intro hmem
  obtain ⟨r, hrmem, hkeep⟩ := childLookup_buildChildMap_iff.mp hmem
  obtain ⟨row, hrow, hcond⟩ := mem_rootsOf.mp hr
  have h1 := hmGet_of_mem_nodup hnd hrmem
  have h2 := hmGet_of_mem_nodup hnd hrow
  rw [h1] at h2
  injection h2 with h2
  rw [← h2] at hcond
  rw [keepParent_none_of_root hcond] at hkeep
  cases hkeep

theorem buildLevelMap_eq (rows : List (String × EmpRow)) :
    buildLevelMap rows = preLevelsOf rows ++
      ((rows.map Prod.fst).filter (fun e => ¬ keyMemL (preLevelsOf rows) e)).map
        (fun e => (e, "N-2")) := rfl

theorem preLevelsOf_eq (rows : List (String × EmpRow)) :
    preLevelsOf rows = bfsLevelsFuel (buildChildMap rows)
      (((usedRootsOf rows).map (fun r => (r, "N"))).length +
        totalKids (buildChildMap rows) + 1)
      ((usedRootsOf rows).map (fun r => (r, "N"))) [] [] := rfl

/-- C5 (amended): provided the roster's email keys are distinct and at least
one record resolves as a root, the level map of `build_hierarchy_map` gives
every root level `"N"`; every non-root record the BFS reaches is a child of a
uniquely resolved parent and its level's numeric suffix is the parent's
suffix plus one; and every record the BFS never reaches is assigned the
default level `"N-2"`. -/
theorem hierarchy_level_monotonicity (rows : List (String × EmpRow))
    (hnd : (rows.map Prod.fst).Nodup) (hroots : rootsOf rows ≠ []) :
    (∀ r ∈ rootsOf rows, dictGet (buildLevelMap rows) r = some "N") ∧
    (∀ e l, e ∉ rootsOf rows → dictGet (preLevelsOf rows) e = some l →
      ∃ p lp k, e ∈ childLookup (buildChildMap rows) p ∧
        (∀ r, (e, r) ∈ rows → keepParent rows r = some p) ∧
        dictGet (buildLevelMap rows) p = some lp ∧
        dictGet (buildLevelMap rows) e = some l ∧
        levelSuffix lp = some k ∧ levelSuffix l = some (k + 1)) ∧
    (∀ e ∈ rows.map Prod.fst, keyMemL (preLevelsOf rows) e = false →
      dictGet (buildLevelMap rows) e = some "N-2") := by
  have husd : usedRootsOf rows = rootsOf rows := by
    rw [usedRootsOf, if_neg hroots]
  have hq : ∀ pr ∈ (usedRootsOf rows).map (fun r => (r, "N")),
      entryOk (usedRootsOf rows) (buildChildMap rows) [] pr.1 pr.2 ∧ canonLevel pr.2 := by
    intro pr hpr
    obtain ⟨r, hr, rfl⟩ := List.mem_map.mp hpr
    exact ⟨Or.inl ⟨hr, rfl⟩, ⟨0, rfl⟩⟩
  have hm0 : ∀ pr ∈ ([] : List (String × String)),
      entryOk (usedRootsOf rows) (buildChildMap rows) [] pr.1 pr.2 ∧ canonLevel pr.2 := by
    intro pr hpr
    cases hpr
  have hseen0 : ∀ x : String, x ∈ ([] : List String) ↔ keyMemL [] x = true := by
    intro x
    simp [keyMemL]
  have hsound0 := bfsLevels_sound (usedRootsOf rows) (buildChildMap rows)
    (((usedRootsOf rows).map (fun r => (r, "N"))).length +
      totalKids (buildChildMap rows) + 1)
    ((usedRootsOf rows).map (fun r => (r, "N"))) [] [] hq hm0 hseen0
  rw [← preLevelsOf_eq] at hsound0
  have hproc : ∀ r ∈ rootsOf rows, keyMemL (preLevelsOf rows) r = true := by
    intro r hr
    rw [← husd] at hr
    obtain ⟨i, hi, hri⟩ := List.mem_iff_getElem.mp hr
    have hiq : i < ((usedRootsOf rows).map (fun r => (r, "N"))).length := by
      rw [List.length_map]
      exact hi
    have hres := bfsLevels_processed (buildChildMap rows)
      (((usedRootsOf rows).map (fun r => (r, "N"))).length +
        totalKids (buildChildMap rows) + 1)
      ((usedRootsOf rows).map (fun r => (r, "N"))) [] []
      (by intro x hx; cases hx) i hiq (by omega)
    rw [← preLevelsOf_eq] at hres
    have hgi : ((((usedRootsOf rows).map (fun r => (r, "N")))[i]).1 : String) = r := by
      simp [List.getElem_map, hri]
    rwa [hgi] at hres
  refine ⟨?_, ?_, ?_⟩
  · intro r hr
    obtain ⟨v, hv⟩ := keyMemL_some (hproc r hr)
    have ho : entryOk (usedRootsOf rows) (buildChildMap rows) (preLevelsOf rows) r v ∧
        canonLevel v := hsound0 (r, v) (dictGet_mem hv)
    rcases ho.1 with ⟨_, hN⟩ | ⟨p, lp, _, hedge, _⟩
    · have hv2 : dictGet (preLevelsOf rows) r = some "N" := by
        rw [← hN]
        exact hv
      rw [buildLevelMap_eq]
      exact dictGet_append_left hv2
    · exact absurd hedge (root_no_edge hnd hr)
  · intro e l hnr hget
    have ho : entryOk (usedRootsOf rows) (buildChildMap rows) (preLevelsOf rows) e l ∧
        canonLevel l := hsound0 (e, l) (dictGet_mem hget)
    rcases ho.1 with ⟨hrt, _⟩ | ⟨p, lp, hplp, hedge, hnl⟩
    · rw [husd] at hrt
      exact absurd hrt hnr
    · obtain ⟨r1, hr1, hk1⟩ := childLookup_buildChildMap_iff.mp hedge
      have hoP : entryOk (usedRootsOf rows) (buildChildMap rows) (preLevelsOf rows) p lp ∧
          canonLevel lp := hsound0 (p, lp) (dictGet_mem hplp)
      obtain ⟨k, hk⟩ := hoP.2
      refine ⟨p, lp, k, hedge, ?_, ?_, ?_, ?_, ?_⟩
      · intro r hr
        have h4 := (hmGet_of_mem_nodup hnd hr1).symm.trans (hmGet_of_mem_nodup hnd hr)
        injection h4 with h4
        rw [← h4]
        exact hk1
      · rw [buildLevelMap_eq]
        exact dictGet_append_left hplp
      · rw [buildLevelMap_eq]
        exact dictGet_append_left hget
      · rw [show lp = levelStrOfNat k from hk, levelSuffix_levelStr]
      · have hl2 : l = levelStrOfNat (k + 1) := by
          rw [hnl, show lp = levelStrOfNat k from hk, nextLevel_levelStr]
        rw [hl2, levelSuffix_levelStr]
  · intro e he hkm
    rw [buildLevelMap_eq, dictGet_none_append (keyMemL_false_iff_none.mp hkm)]
    apply dictGet_const_map
    rw [List.mem_filter]
    refine ⟨he, by simp [hkm]⟩

/-- C5 counterexample: in a roster where `a` is the only root and `b`, `c`
form a two-node supervisor cycle, the BFS never reaches `b` or `c`, and both
are forced to `"N-2"`; `b` is a non-root whose parent `c` also has suffix 2,
so `b`'s suffix is not its parent's suffix plus one as the claim states. -/
theorem hierarchy_level_monotonicity_counterexample :
    rootsOf [("a", (⟨"A", "x1", "", "", "", "", "", ""⟩ : EmpRow)),
      ("b", ⟨"B", "x2", "", "x3", "", "", "", ""⟩),
      ("c", ⟨"C", "x3", "", "x2", "", "", "", ""⟩)] = ["a"] ∧
    "b" ∈ childLookup (buildChildMap [("a", (⟨"A", "x1", "", "", "", "", "", ""⟩ : EmpRow)),
      ("b", ⟨"B", "x2", "", "x3", "", "", "", ""⟩),
      ("c", ⟨"C", "x3", "", "x2", "", "", "", ""⟩)]) "c" ∧
    dictGet (buildLevelMap [("a", (⟨"A", "x1", "", "", "", "", "", ""⟩ : EmpRow)),
      ("b", ⟨"B", "x2", "", "x3", "", "", "", ""⟩),
      ("c", ⟨"C", "x3", "", "x2", "", "", "", ""⟩)]) "b" = some "N-2" ∧
    dictGet (buildLevelMap [("a", (⟨"A", "x1", "", "", "", "", "", ""⟩ : EmpRow)),
      ("b", ⟨"B", "x2", "", "x3", "", "", "", ""⟩),
      ("c", ⟨"C", "x3", "", "x2", "", "", "", ""⟩)]) "c" = some "N-2" ∧
    levelSuffix "N-2" = some 2 ∧ levelSuffix "N-2" ≠ some (2 + 1) :=
  ⟨by decide, by decide, by decide, by decide, by decide, by decide⟩

/-- Witness for the amended C5: a two-record roster (`a` managing `b`) has
distinct keys and root `a`, and the level map assigns `a` level `"N"`. -/
theorem hierarchy_level_monotonicity_witness :
    (([("a", (⟨"A", "x1", "", "", "", "", "", ""⟩ : EmpRow)),
        ("b", ⟨"B", "x2", "", "x1", "", "", "", ""⟩)].map Prod.fst).Nodup) ∧
    rootsOf [("a", (⟨"A", "x1", "", "", "", "", "", ""⟩ : EmpRow)),
      ("b", ⟨"B", "x2", "", "x1", "", "", "", ""⟩)] ≠ [] ∧
    "a" ∈ rootsOf [("a", (⟨"A", "x1", "", "", "", "", "", ""⟩ : EmpRow)),
      ("b", ⟨"B", "x2", "", "x1", "", "", "", ""⟩)] ∧
    dictGet (buildLevelMap [("a", (⟨"A", "x1", "", "", "", "", "", ""⟩ : EmpRow)),
      ("b", ⟨"B", "x2", "", "x1", "", "", "", ""⟩)]) "a" = some "N" :=
  ⟨by decide, by decide, by decide,
    (hierarchy_level_monotonicity
        [("a", ⟨"A", "x1", "", "", "", "", "", ""⟩), ("b", ⟨"B", "x2", "", "x1", "", "", "", ""⟩)]
        (by decide) (by decide)).1 "a" (by decide)⟩
